import Mathlib

/-!
# Verification of the desk-layout core

A shallow embedding of `src/frontend/src/calculateDeskLayout.ts` and of the
generic helper `reorderSubArray` (`src/unnamed/part_000`,
`frontend/src/helper/array` in the import path), together with theorems
settling the behavioural claims about them.

Modelling conventions:
* JavaScript arrays are Lean `List`s; the numeric indices handed to
  `reorderSubArray` are modelled as `Int` (they can be negative in principle,
  and the guard in the source compares them as numbers).
* `Array.prototype.sort` (a stable sort) is modelled by a stable insertion
  sort `jsSort`; for every comparator that is consistent (sign-antisymmetric
  and transitive on the elements being sorted) any stable sort algorithm
  produces this same result.
* `string.localeCompare` is modelled as sign-accurate lexicographic string
  comparison (`strCmp`).
* The JavaScript distinction between `null` and `undefined` is load-bearing
  for the team-rank `Map` (the classifier stores the teamless summary under
  the key `null`, while the re-sort looks teamless people up under
  `undefined`), so map keys are modelled by the type `JSKey` with distinct
  constructors `jnull` and `jundef`.
* A JavaScript falsy test on a `string | undefined` value (`if (!currTeam)`,
  `if (!currTeam.teamId)`) holds exactly for `undefined` and for the empty
  string; on `Option String` this is `none` or `some ""`.
* `DogStatus` is the enumeration from the generated GraphQL bindings (not
  under `src/`); per the spec it is the closed enumeration
  `{Avoid, Like, Have}`.
* `Number.MAX_SAFE_INTEGER` is `2 ^ 53 - 1 = 9007199254740991`.
* `console.warn` is an effect on the console only; it does not influence the
  computed value and is not modelled.
-/

/-- Dog-tolerance classification of a person (from the GraphQL enum
`DogStatus` referenced by the source). -/
inductive DogStatus where
  | AVOID
  | LIKE
  | HAVE
deriving DecidableEq

/-- A team: the core only ever reads the `id`. -/
structure Team where
  id : String
  name : String
deriving DecidableEq

/-- A person record as consumed by `calculateDeskLayout`:
`{ id, team?: { id, name }, dogStatus }`. -/
structure Person where
  id : String
  team : Option Team
  dogStatus : DogStatus
deriving DecidableEq

/-- `person.team?.id` — the team id seen through optional chaining
(`undefined` when the person has no team). -/
def Person.tid (p : Person) : Option String :=
  p.team.map Team.id

/-- Inhabitant used as the junk default for out-of-range `List.getD`
accesses (never reached under the bounds hypotheses in the statements). -/
def defaultPerson : Person :=
  { id := "", team := none, dogStatus := DogStatus.LIKE }

/-- `DogStatusOrder`: `{ AVOID: 1, LIKE: 2, HAVE: 3 }`. -/
def DogStatusOrder : DogStatus → Nat
  | DogStatus.AVOID => 1
  | DogStatus.LIKE => 2
  | DogStatus.HAVE => 3

/-- Lexicographic strict comparison of character lists by code point
(structurally recursive, so that concrete layouts evaluate). -/
def charListLt : List Char → List Char → Bool
  | _, [] => false
  | [], _ :: _ => true
  | a :: as, b :: bs =>
    if a.toNat < b.toNat then true
    else if b.toNat < a.toNat then false
    else charListLt as bs

/-- Lexicographic strict comparison of strings by code point. -/
def strLt (s t : String) : Bool :=
  charListLt s.data t.data

/-- Sign-accurate model of `String.prototype.localeCompare` (lexicographic
comparison; only the sign of the result is ever used by the source). -/
def strCmp (s t : String) : Int :=
  if strLt s t then -1 else if strLt t s then 1 else 0

/-- The primary grouping comparator `sortByTeamAndDogStatus`: team id first
(only when both people have a team), then dog-status rank. -/
def sortByTeamAndDogStatus (personA personB : Person) : Int :=
  match personA.team, personB.team with
  | some ta, some tb =>
    if ta.id ≠ tb.id then strCmp ta.id tb.id
    else statusPart
  | _, _ => statusPart
where
  /-- the secondary (dog-status) comparison both branches fall through to -/
  statusPart : Int :=
    if DogStatusOrder personA.dogStatus < DogStatusOrder personB.dogStatus then -1
    else if DogStatusOrder personB.dogStatus < DogStatusOrder personA.dogStatus then 1
    else 0

/-- One JavaScript-style insertion step: `x` is placed before the first
element `y` of the (already sorted) accumulator with `cmp x y < 0`, hence
after all elements comparing equal to it — the stable placement. -/
def jsInsert (cmp : α → α → Int) (x : α) : List α → List α
  | [] => [x]
  | y :: ys => if cmp x y < 0 then x :: y :: ys else y :: jsInsert cmp x ys

/-- Model of `Array.prototype.sort(cmp)`: a stable sort by `cmp`. -/
def jsSort (cmp : α → α → Int) (l : List α) : List α :=
  l.foldl (fun acc x => jsInsert cmp x acc) []

/-- `TeamCategory` with its load-bearing ordinals
(`DOG_HATERS = 0, MIXED = 1, NO_TEAM = 2, DOG_LOVERS = 3`). -/
inductive TeamCategory where
  | DOG_HATERS
  | MIXED
  | NO_TEAM
  | DOG_LOVERS
deriving DecidableEq

/-- The numeric value of a `TeamCategory` member. -/
def TeamCategory.toNat : TeamCategory → Nat
  | DOG_HATERS => 0
  | MIXED => 1
  | NO_TEAM => 2
  | DOG_LOVERS => 3

/-- The transient `TeamSummary` record `{ teamId: string | null, category }`. -/
structure TeamSummary where
  teamId : Option String
  category : TeamCategory
deriving DecidableEq

/-- The per-run counter record `teamDogStatusCount`
(`{ AVOID: 0, LIKE: 0, HAVE: 0 }`). -/
structure Counts where
  AVOID : Nat
  LIKE : Nat
  HAVE : Nat
deriving DecidableEq

/-- The all-zero counter record. -/
def Counts.zero : Counts := { AVOID := 0, LIKE := 0, HAVE := 0 }

/-- Bump the counter matching a dog status (the `switch` in the scan). -/
def Counts.bump (c : Counts) : DogStatus → Counts
  | DogStatus.AVOID => { c with AVOID := c.AVOID + 1 }
  | DogStatus.HAVE => { c with HAVE := c.HAVE + 1 }
  | DogStatus.LIKE => { c with LIKE := c.LIKE + 1 }

/-- `categoriseTeam`: priority-ordered classification of a closed run from
its tolerance counts. -/
def categoriseTeam (teamDogStatusCount : Counts) : TeamCategory :=
  if teamDogStatusCount.AVOID = 0 then TeamCategory.DOG_LOVERS
  else if teamDogStatusCount.HAVE = 0 then TeamCategory.DOG_HATERS
  else if 0 < teamDogStatusCount.AVOID ∧ 0 < teamDogStatusCount.HAVE then
    TeamCategory.MIXED
  else TeamCategory.NO_TEAM

/-- The running state of the classifier scan in `sortTeamsByCategory`:
current counters, the open `currTeam` summary, and the summaries pushed so
far. -/
structure ClsState where
  cnt : Counts
  currTeam : TeamSummary
  acc : List TeamSummary
deriving DecidableEq

/-- The classifier's initial state (`currTeam = { teamId: null, NO_TEAM }`). -/
def clsInit : ClsState :=
  { cnt := Counts.zero
  , currTeam := { teamId := none, category := TeamCategory.NO_TEAM }
  , acc := [] }

/-- First statement of the classifier's `forEach` body
(`if (!currTeam.teamId) { currTeam = … }`): the falsy-`teamId` refresh.
A falsy `string | null` value is `null` or the empty string. -/
def clsReset (st : ClsState) (person : Person) : ClsState :=
  if st.currTeam.teamId = none ∨ st.currTeam.teamId = some "" then
    { st with currTeam := { teamId := person.tid, category := TeamCategory.NO_TEAM } }
  else st

/-- Second statement of the classifier's `forEach` body: on a change of
team id, close the current run (categorise and push it) and reset the
`currTeam` pointer and the counters. -/
def clsClose (st : ClsState) (person : Person) : ClsState :=
  if st.currTeam.teamId ≠ person.tid then
    { cnt := Counts.zero
    , currTeam := { teamId := person.tid, category := TeamCategory.NO_TEAM }
    , acc := st.acc ++ [{ st.currTeam with category := categoriseTeam st.cnt }] }
  else st

/-- Third statement of the classifier's `forEach` body: the `switch` that
bumps the count for the person's dog status. -/
def clsBump (st : ClsState) (person : Person) : ClsState :=
  { st with cnt := st.cnt.bump person.dogStatus }

/-- One iteration of the classifier's `forEach` body: the falsy-`teamId`
reset, then the run-boundary check (close, push, reset counters), then the
status-count bump, in source order. -/
def clsStep (st : ClsState) (person : Person) : ClsState :=
  clsBump (clsClose (clsReset st person) person) person

/-- The unsorted summary list the classifier accumulates: the `forEach`
scan followed by the final push of the pending run. -/
def rawSummaries (people : List Person) : List TeamSummary :=
  let st := people.foldl clsStep clsInit
  st.acc ++ [{ st.currTeam with category := categoriseTeam st.cnt }]

/-- The comparator of the final `teamSummaries.sort`:
`teamA.category - teamB.category`. -/
def categoryCmp (teamA teamB : TeamSummary) : Int :=
  (teamA.category.toNat : Int) - (teamB.category.toNat : Int)

/-- `sortTeamsByCategory`: scan the grouped sequence into summaries, then
sort the summaries by category ordinal. -/
def sortTeamsByCategory (people : List Person) : List TeamSummary :=
  jsSort categoryCmp (rawSummaries people)

/-- A JavaScript `Map` key as used by `teamRankMap`: the population uses
`tp.teamId` (a string or `null`), the lookup uses `person.team?.id` (a
string or `undefined`); `null` and `undefined` are distinct keys. -/
inductive JSKey where
  | jnull
  | jundef
  | jstr (s : String)
deriving DecidableEq

/-- The key under which a summary is stored: `teamRankMap.set(tp.teamId, …)`
(the `as string` cast does not change the runtime value `null`). -/
def storeKey : Option String → JSKey
  | none => JSKey.jnull
  | some s => JSKey.jstr s

/-- The `Map` key corresponding to a `string | undefined` value. -/
def keyOfTid : Option String → JSKey
  | none => JSKey.jundef
  | some s => JSKey.jstr s

/-- The key used by the re-sort's lookup:
`teamRankMap.get(person.team?.id)` (`undefined` for a teamless person). -/
def lookupKey (p : Person) : JSKey :=
  keyOfTid p.tid

/-- `teamRankMap` built from the summary list by successive `set` calls
(later entries overwrite earlier ones), read as a partial function. -/
def teamRankMap (summaries : List TeamSummary) : JSKey → Option Nat :=
  summaries.foldl
    (fun m tp k => if k = storeKey tp.teamId then some tp.category.toNat else m k)
    (fun _ => none)

/-- `Number.MAX_SAFE_INTEGER`. -/
def MAX_SAFE_INTEGER : Nat := 9007199254740991

/-- The priority rank as a function of the `team?.id` value alone. -/
def tidRank (m : JSKey → Option Nat) (t : Option String) : Nat :=
  (m (keyOfTid t)).getD MAX_SAFE_INTEGER

/-- The priority rank the re-sort assigns to a person:
`teamRankMap.get(person.team?.id) ?? Number.MAX_SAFE_INTEGER`. -/
def rankOf (m : JSKey → Option Nat) (p : Person) : Nat :=
  tidRank m p.tid

/-- The re-sort comparator: category rank first; team-id tie-break only when
both people have a team; otherwise equal. -/
def rankCmp (m : JSKey → Option Nat) (personA personB : Person) : Int :=
  if rankOf m personA ≠ rankOf m personB then
    (rankOf m personA : Int) - (rankOf m personB : Int)
  else
    match personA.team, personB.team with
    | some ta, some tb => strCmp ta.id tb.id
    | _, _ => 0

/-- `reorderSubArray`: replace the closed index range `[start, endIdx]` with
the transform's output on exactly that slice; on invalid bounds
(`start < 0 || end >= length || start > end`) return the array unchanged
(the source additionally emits a `console.warn`, which has no effect on the
value). The source parameter is named `end`, a reserved word in Lean. -/
def reorderSubArray (array : List α) (start endIdx : Int)
    (reOrderLogic : List α → List α) : List α :=
  if start < 0 ∨ (array.length : Int) ≤ endIdx ∨ start > endIdx then array
  else
    array.take start.toNat
      ++ reOrderLogic ((array.take (endIdx.toNat + 1)).drop start.toNat)
      ++ array.drop (endIdx.toNat + 1)

/-- The `findIndex` call of `insertPeopleWithDogLogic`: the first index
`> 0` whose dog status differs from that of the element at index 0
(equivalently, since an element never differs from itself, the first such
index at all). -/
def findSplitPoint : List Person → Option Nat
  | [] => none
  | h :: t => go h 1 t
where
  /-- scan the tail for the first status change, carrying the next index -/
  go (h : Person) : Nat → List Person → Option Nat
    | _, [] => none
    | i, p :: ps => if p.dogStatus ≠ h.dogStatus then some i else go h (i + 1) ps

/-- The two-cursor alternation of `insertPeopleWithDogLogic`: one element of
the first group, one of the second, until one is exhausted; then the
remaining tail of the other, in order. -/
def alternate : List α → List α → List α
  | [], b => b
  | a, [] => a
  | x :: xs, y :: ys => x :: y :: alternate xs ys

/-- `insertPeopleWithDogLogic`: slices of length `≤ 3` (and fully
homogeneous slices) are returned unchanged; otherwise the slice is split at
the first status change and the two groups are alternated. -/
def insertPeopleWithDogLogic (subArray : List Person) : List Person :=
  if subArray.length ≤ 3 then subArray
  else
    match findSplitPoint subArray with
    | some splitPoint =>
        alternate (subArray.take splitPoint) (subArray.drop splitPoint)
    | none => subArray

/-- A record of one `reorderSubArray` invocation made by the interleaving
pass: the `start` and `end` arguments and the length of the array passed. -/
structure CallRec where
  start : Int
  stop : Int
  len : Nat
deriving DecidableEq

/-- The interleaving pass's scan state: `currTeam`, `startPointer`,
`startSearchFlag`, the array being updated, and (for the safety analysis)
the record of `reorderSubArray` calls made so far. -/
structure ScanState where
  currTeam : Option String
  startPointer : Nat
  startSearchFlag : Bool
  updatedPeople : List Person
  calls : List CallRec
deriving DecidableEq

/-- First statement of the interleaving pass's `forEach` body
(`if (!currTeam) { currTeam = person.team?.id }`): the falsy-`currTeam`
refresh (`undefined` or the empty string is falsy). -/
def scanReset (st : ScanState) (person : Person) : ScanState :=
  if st.currTeam = none ∨ st.currTeam = some "" then
    { st with currTeam := person.tid }
  else st

/-- Second statement of the interleaving pass's `forEach` body: when a run
is open and the team changes (or an `AVOID` person of the run's team is
seen), flush the run `[startPointer, idx - 1]` through `reorderSubArray`
and clear the flag.  The call's arguments are also recorded. -/
def scanFlush (st : ScanState) (idx : Nat) (person : Person) : ScanState :=
  if st.startSearchFlag ∧
      (person.tid ≠ st.currTeam ∨
        (person.tid = st.currTeam ∧ person.dogStatus = DogStatus.AVOID)) then
    { st with
      updatedPeople :=
        reorderSubArray st.updatedPeople (st.startPointer : Int)
          ((idx : Int) - 1) insertPeopleWithDogLogic
    , calls :=
        st.calls ++
          [⟨(st.startPointer : Int), (idx : Int) - 1, st.updatedPeople.length⟩]
    , startSearchFlag := false }
  else st

/-- Third statement of the interleaving pass's `forEach` body: open a run
at the first non-`AVOID` person while no run is open. -/
def scanStart (st : ScanState) (idx : Nat) (person : Person) : ScanState :=
  if ¬ st.startSearchFlag ∧ person.dogStatus ≠ DogStatus.AVOID then
    { st with
      currTeam := person.tid
    , startPointer := idx
    , startSearchFlag := true }
  else st

/-- One iteration of the interleaving pass's `forEach` body at index `idx`:
the falsy-`currTeam` refresh, the flush-on-boundary check, and the
run-start check, in source order. -/
def scanStep (st : ScanState) (idx : Nat) (person : Person) : ScanState :=
  scanStart (scanFlush (scanReset st person) idx person) idx person

/-- The indexed `forEach` traversal of the interleaving pass. -/
def scanGo (st : ScanState) (idx : Nat) : List Person → ScanState
  | [] => st
  | p :: ps => scanGo (scanStep st idx p) (idx + 1) ps

/-- The `if (startSearchFlag)` block after the `forEach`: flush the run
that is still open when the scan reaches the end of the list. -/
def terminalFlush (st : ScanState) : ScanState :=
  if st.startSearchFlag then
    { st with
      updatedPeople :=
        reorderSubArray st.updatedPeople (st.startPointer : Int)
          ((st.updatedPeople.length : Int) - 1) insertPeopleWithDogLogic
    , calls :=
        st.calls ++
          [⟨(st.startPointer : Int), (st.updatedPeople.length : Int) - 1,
            st.updatedPeople.length⟩] }
  else st

/-- The initial state of the interleaving pass's scan. -/
def scanInit (sortedPeople : List Person) : ScanState :=
  { currTeam := none
  , startPointer := 0
  , startSearchFlag := false
  , updatedPeople := sortedPeople
  , calls := [] }

/-- The whole interleaving pass over the re-sorted list: the scan followed
by the terminal flush of a still-open run. -/
def runScan (sortedPeople : List Person) : ScanState :=
  terminalFlush (scanGo (scanInit sortedPeople) 0 sortedPeople)

/-- The final list produced by the interleaving pass. -/
def interleavePass (sortedPeople : List Person) : List Person :=
  (runScan sortedPeople).updatedPeople

/-- The sequence `[...people].sort(sortByTeamAndDogStatus)` — the grouped
list the classifier scans. -/
def groupedPeople (people : List Person) : List Person :=
  jsSort sortByTeamAndDogStatus people

/-- The rank map `calculateDeskLayout` builds for its input. -/
def layoutRankMap (people : List Person) : JSKey → Option Nat :=
  teamRankMap (sortTeamsByCategory (groupedPeople people))

/-- The category-priority rank `calculateDeskLayout` assigns to a person of
its input (the value its re-sort comparator uses). -/
def layoutRank (people : List Person) (p : Person) : Nat :=
  rankOf (layoutRankMap people) p

/-- The list after the second (category-rank) sort, just before the
interleaving pass. -/
def rankSorted (people : List Person) : List Person :=
  jsSort (rankCmp (layoutRankMap people)) (groupedPeople people)

/-- `calculateDeskLayout`: group by team and status, classify the runs,
re-sort by category rank, then interleave within runs of non-avoiders. -/
def calculateDeskLayout (people : List Person) : List Person :=
  interleavePass (rankSorted people)

/-- The `reorderSubArray` calls the interleaving pass inside
`calculateDeskLayout` performs, in order. -/
def deskLayoutCalls (people : List Person) : List CallRec :=
  (runScan (rankSorted people)).calls

/-- The team id found at position `i` of a list (junk default out of
range). -/
def tidAt (l : List Person) (i : Nat) : Option String :=
  (l.map Person.tid).getD i none

/-- Team contiguity of a layout: no position `j` strictly between two
positions carrying the same team id holds a different team id. -/
def TeamContiguous (l : List Person) : Prop :=
  ∀ k, k < l.length → ∀ j, j < k → ∀ i, i < j →
    tidAt l i = tidAt l k → tidAt l j = tidAt l i

instance (l : List Person) : Decidable (TeamContiguous l) := by
  unfold TeamContiguous
  infer_instance

/-- The teamless-last property the re-sort's fallback rank produces: once a
teamless person appears, everyone after them is teamless too. -/
def TeamlessLast (l : List Person) : Prop :=
  List.Pairwise (fun p q => p.team = none → q.team = none) l

/-- The category position claimed for a person by the spec's category
ordering: `DogHaters = 0 ≺ Mixed = 1 ≺ teamless = 2 ≺ DogLovers = 3`; a
teamed person is placed at the ordinal the classifier recorded for their
team. -/
def claimedCategoryOrder (people : List Person) (p : Person) : Nat :=
  match p.tid with
  | none => 2
  | some _ => ((layoutRankMap people) (lookupKey p)).getD 2

/-- The category-ordering property exactly as the claim states it: along
the output, the claimed category positions are non-decreasing (every
DogHaters block before every Mixed block, before the teamless block,
before every DogLovers block). -/
def ClaimedCategoryOrdering (people : List Person) : Prop :=
  List.Pairwise
    (fun p q =>
      claimedCategoryOrder people p ≤ claimedCategoryOrder people q)
    (calculateDeskLayout people)

instance (people : List Person) : Decidable (ClaimedCategoryOrdering people) := by
  unfold ClaimedCategoryOrdering
  infer_instance

instance (l : List Person) : Decidable (TeamlessLast l) := by
  unfold TeamlessLast
  infer_instance

/-- The number of run boundaries at which the classifier actually closes a
run: adjacent positions whose earlier person has a truthy team id that
differs from the next person's. A falsy (teamless or empty) id never
closes, so such runs are merged into their successor. -/
def truthyBoundaries : List Person → Nat
  | [] => 0
  | [_] => 0
  | p :: q :: r =>
    (if p.tid ≠ none ∧ p.tid ≠ some "" ∧ p.tid ≠ q.tid then 1 else 0)
      + truthyBoundaries (q :: r)

/-- The subgroup provenance (`true` = groupA, `false` = groupB) of the
elements produced by alternating a group of size `a` with one of size `b`
and appending the surviving tail. -/
def interleaveLabels : Nat → Nat → List Bool
  | 0, b => List.replicate b false
  | a + 1, 0 => List.replicate (a + 1) true
  | a + 1, b + 1 => true :: false :: interleaveLabels a b

/-- Run-length scan of a label list, carrying the current label and the
length of its run so far. -/
def runsGo (cur : Bool) (n : Nat) : List Bool → List Nat
  | [] => [n]
  | y :: ys => if y = cur then runsGo cur (n + 1) ys else n :: runsGo y 1 ys

/-- The lengths of the maximal constant runs of a label list, in order. -/
def runs : List Bool → List Nat
  | [] => []
  | x :: xs => runsGo x 1 xs

/-- The maximum number of consecutive equal labels in a label list. -/
def maxRun (l : List Bool) : Nat :=
  (runs l).foldr max 0

/-- Analysis helper: the tie-break part of the re-sort comparator. -/
def rankTie (personA personB : Person) : Int :=
  match personA.team, personB.team with
  | some ta, some tb => strCmp ta.id tb.id
  | _, _ => 0

/-- Validity of a recorded `reorderSubArray` call: the guard
`start < 0 || end >= length || start > end` does not fire. -/
def CallOK (c : CallRec) : Prop :=
  0 ≤ c.start ∧ c.start ≤ c.stop ∧ c.stop < (c.len : Int)

/-- Build a person for the concrete example layouts: the team name is not
read by the algorithm, so it repeats the id. -/
def mkPerson (i : String) (t : Option String) (d : DogStatus) : Person :=
  { id := i, team := t.map (fun s => { id := s, name := s }), dogStatus := d }

/-- Concrete input with an empty-string team id: team `""` has members on
both sides of a teamless person in the layout. -/
def exEmptyTeamId : List Person :=
  [ mkPerson "p1" (some "") DogStatus.AVOID
  , mkPerson "p2" none DogStatus.LIKE
  , mkPerson "p3" (some "") DogStatus.HAVE
  , mkPerson "p4" (some "Z") DogStatus.HAVE ]

/-- Concrete input with a teamless person and an all-Have (DogLovers)
team. -/
def exTeamlessLovers : List Person :=
  [ mkPerson "t1" none DogStatus.LIKE
  , mkPerson "a1" (some "A") DogStatus.HAVE ]

/-- Concrete grouped input whose first run is DogLovers and second run is
DogHaters. -/
def exRunOrder : List Person :=
  [ mkPerson "a1" (some "A") DogStatus.HAVE
  , mkPerson "b1" (some "B") DogStatus.AVOID ]

/-- Concrete run slice of length 4 splitting into two equal groups. -/
def exEvenSlice : List Person :=
  [ mkPerson "q1" none DogStatus.LIKE
  , mkPerson "q2" none DogStatus.LIKE
  , mkPerson "q3" none DogStatus.HAVE
  , mkPerson "q4" none DogStatus.HAVE ]

/-- Concrete run slice of length 5 splitting into groups of 2 and 3. -/
def exOddSlice : List Person :=
  [ mkPerson "r1" none DogStatus.LIKE
  , mkPerson "r2" none DogStatus.LIKE
  , mkPerson "r3" none DogStatus.HAVE
  , mkPerson "r4" none DogStatus.HAVE
  , mkPerson "r5" none DogStatus.HAVE ]

/-- The documented example: one team of five with the statuses from the
source's comment. -/
def exDocumented : List Person :=
  [ mkPerson "Alice" (some "T") DogStatus.LIKE
  , mkPerson "Bob" (some "T") DogStatus.LIKE
  , mkPerson "Charlie" (some "T") DogStatus.AVOID
  , mkPerson "David" (some "T") DogStatus.HAVE
  , mkPerson "Eve" (some "T") DogStatus.HAVE ]

/-! ## Lemmas about the stable sort model -/

theorem jsInsert_perm (cmp : α → α → Int) (x : α) (l : List α) :
    (jsInsert cmp x l).Perm (x :: l) := by
  induction l with
  | nil => simp [jsInsert]
  | cons y ys ih =>
    unfold jsInsert
    by_cases h : cmp x y < 0
    · simp [h]
    · simp only [h, if_false]
      exact (ih.cons y).trans (List.Perm.swap x y ys)

theorem jsInsert_mem {cmp : α → α → Int} {x z : α} {l : List α} :
    z ∈ jsInsert cmp x l ↔ z = x ∨ z ∈ l := by
  rw [(jsInsert_perm cmp x l).mem_iff]
  simp

theorem jsSort_perm (cmp : α → α → Int) (l : List α) :
    (jsSort cmp l).Perm l := by
  suffices h : ∀ (l acc : List α),
      (l.foldl (fun acc x => jsInsert cmp x acc) acc).Perm (l ++ acc) by
    simpa using h l []
  intro l
  induction l with
  | nil => intro acc; simp
  | cons x xs ih =>
    intro acc
    simp only [List.foldl_cons, List.cons_append]
    refine ((ih (jsInsert cmp x acc)).trans ?_)
    refine (List.Perm.append_left xs (jsInsert_perm cmp x acc)).trans ?_
    exact List.perm_middle

theorem jsInsert_pairwise {cmp : α → α → Int} {P : List α} {x : α} {l : List α}
    (hskew : ∀ a b, cmp b a = -cmp a b)
    (htrans : ∀ a b c, a ∈ P → b ∈ P → c ∈ P →
      cmp a b ≤ 0 → cmp b c ≤ 0 → cmp a c ≤ 0)
    (hx : x ∈ P) (hsub : ∀ y ∈ l, y ∈ P)
    (hp : List.Pairwise (fun a b => cmp a b ≤ 0) l) :
    List.Pairwise (fun a b => cmp a b ≤ 0) (jsInsert cmp x l) := by
  induction l with
  | nil => simp [jsInsert]
  | cons y ys ih =>
    have hy : y ∈ P := hsub y (by simp)
    have hys : ∀ z ∈ ys, z ∈ P := fun z hz => hsub z (by simp [hz])
    rcases List.pairwise_cons.mp hp with ⟨hyz, hpys⟩
    unfold jsInsert
    by_cases h : cmp x y < 0
    · simp only [h, if_true]
      refine List.pairwise_cons.mpr ⟨?_, hp⟩
      intro z hz
      rcases List.mem_cons.mp hz with rfl | hz
      · exact le_of_lt h
      · exact htrans x y z hx hy (hys z hz) (le_of_lt h) (hyz z hz)
    · simp only [h, if_false]
      refine List.pairwise_cons.mpr ⟨?_, ih hys hpys⟩
      intro z hz
      rcases jsInsert_mem.mp hz with rfl | hz
      · have : 0 ≤ cmp z y := not_lt.mp h
        have := hskew z y
        omega
      · exact hyz z hz

theorem jsSort_pairwise {cmp : α → α → Int} {l : List α}
    (hskew : ∀ a b, cmp b a = -cmp a b)
    (htrans : ∀ a b c, a ∈ l → b ∈ l → c ∈ l →
      cmp a b ≤ 0 → cmp b c ≤ 0 → cmp a c ≤ 0) :
    List.Pairwise (fun a b => cmp a b ≤ 0) (jsSort cmp l) := by
  suffices h : ∀ (r acc : List α), (∀ y ∈ r, y ∈ l) → (∀ y ∈ acc, y ∈ l) →
      List.Pairwise (fun a b => cmp a b ≤ 0) acc →
      List.Pairwise (fun a b => cmp a b ≤ 0)
        (r.foldl (fun acc x => jsInsert cmp x acc) acc) by
    exact h l [] (fun y hy => hy) (by simp) (by simp)
  intro r
  induction r with
  | nil => intro acc _ _ hacc; simpa using hacc
  | cons x xs ih =>
    intro acc hr hacc hpacc
    simp only [List.foldl_cons]
    refine ih (jsInsert cmp x acc) (fun y hy => hr y (by simp [hy])) ?_ ?_
    · intro y hy
      rcases jsInsert_mem.mp hy with rfl | hy
      · exact hr y (by simp)
      · exact hacc y hy
    · exact jsInsert_pairwise hskew htrans (hr x (by simp)) hacc hpacc

/-! ## Lemmas about the interleave transform -/

theorem alternate_perm (a b : List α) : (alternate a b).Perm (a ++ b) := by
  induction a generalizing b with
  | nil => simp [alternate]
  | cons x xs ih =>
    cases b with
    | nil => simp [alternate]
    | cons y ys =>
      show (x :: y :: alternate xs ys).Perm (x :: xs ++ y :: ys)
      refine ((ih ys).cons y).cons x |>.trans ?_
      exact (List.perm_middle.symm.cons x)

theorem insertPeopleWithDogLogic_perm (s : List Person) :
    (insertPeopleWithDogLogic s).Perm s := by
  unfold insertPeopleWithDogLogic
  split
  · exact List.Perm.refl s
  · split
    · rename_i sp _
      exact (alternate_perm _ _).trans (by rw [List.take_append_drop])
    · exact List.Perm.refl s

/-! ## Lemmas about `reorderSubArray` -/

theorem reorderSubArray_invalid (l : List α) (start endIdx : Int)
    (f : List α → List α)
    (h : start < 0 ∨ (l.length : Int) ≤ endIdx ∨ start > endIdx) :
    reorderSubArray l start endIdx f = l := by
  unfold reorderSubArray
  exact if_pos h

theorem reorderSubArray_valid (l : List α) (start endIdx : Int)
    (f : List α → List α)
    (h0 : 0 ≤ start) (h1 : start ≤ endIdx) (h2 : endIdx < (l.length : Int)) :
    reorderSubArray l start endIdx f =
      l.take start.toNat
        ++ f ((l.take (endIdx.toNat + 1)).drop start.toNat)
        ++ l.drop (endIdx.toNat + 1) := by
  unfold reorderSubArray
  rw [if_neg]
  push_neg
  exact ⟨h0, h2, h1⟩

theorem slice_glue (l : List α) {a b : Nat} (hab : a ≤ b) :
    l.take a ++ ((l.take b).drop a ++ l.drop b) = l := by
  have h1 : l.take a = (l.take b).take a := by
    rw [List.take_take, Nat.min_eq_left hab]
  rw [h1, ← List.append_assoc, List.take_append_drop, List.take_append_drop]

theorem reorderSubArray_perm (l : List α) (start endIdx : Int)
    (f : List α → List α) (hf : ∀ s, (f s).Perm s) :
    (reorderSubArray l start endIdx f).Perm l := by
  by_cases h : start < 0 ∨ (l.length : Int) ≤ endIdx ∨ start > endIdx
  · rw [reorderSubArray_invalid l start endIdx f h]
  · push_neg at h
    rcases h with ⟨h0, h2, h1⟩
    rw [reorderSubArray_valid l start endIdx f h0 h1 h2]
    have hab : start.toNat ≤ endIdx.toNat + 1 := by omega
    calc (l.take start.toNat
            ++ f ((l.take (endIdx.toNat + 1)).drop start.toNat)
            ++ l.drop (endIdx.toNat + 1)).Perm
          (l.take start.toNat
            ++ ((l.take (endIdx.toNat + 1)).drop start.toNat
              ++ l.drop (endIdx.toNat + 1))) := by
            rw [List.append_assoc]
            exact List.Perm.append_left _
              ((hf _).append_right _)
      _ = l := slice_glue l hab

theorem reorderSubArray_length (l : List α) (start endIdx : Int)
    (f : List α → List α) (hf : ∀ s, (f s).Perm s) :
    (reorderSubArray l start endIdx f).length = l.length :=
  (reorderSubArray_perm l start endIdx f hf).length_eq


theorem slice_of_map_const {β : Type} {T : List β} {a b : Nat} {c : β}
    (hc : ∀ (k : Nat) (hk : k < T.length), a ≤ k → k < b → T[k] = c) :
    (T.take b).drop a = List.replicate ((T.take b).drop a).length c := by
  rw [List.eq_replicate_iff]
  refine ⟨rfl, ?_⟩
  intro x hx
  rcases List.mem_iff_get.mp hx with ⟨⟨n, hn⟩, hget⟩
  have hlen : n < (T.take b).length - a := by
    simpa [List.length_drop] using hn
  have hb : a + n < b ∧ a + n < T.length := by
    have := List.length_take b T
    omega
  have hstep : ((T.take b).drop a).get ⟨n, hn⟩ = T[a + n] := by
    have h1 : ((T.take b).drop a).get ⟨n, hn⟩ = (T.take b)[a + n] :=
      List.getElem_drop (T.take b)
    rw [h1]
    exact List.getElem_take T
  rw [← hget, hstep]
  exact hc (a + n) hb.2 (Nat.le_add_right a n) hb.1

theorem reorderSubArray_map_const {β : Type} (g : Person → β)
    (l : List Person) (start endIdx : Int) (f : List Person → List Person)
    (hf : ∀ s, (f s).Perm s) (c : β)
    (hc : ∀ (k : Nat) (hk : k < (l.map g).length),
      start.toNat ≤ k → k < endIdx.toNat + 1 → (l.map g)[k] = c) :
    (reorderSubArray l start endIdx f).map g = l.map g := by
  by_cases h : start < 0 ∨ (l.length : Int) ≤ endIdx ∨ start > endIdx
  · rw [reorderSubArray_invalid l start endIdx f h]
  · push_neg at h
    rcases h with ⟨h0, h2, h1⟩
    rw [reorderSubArray_valid l start endIdx f h0 h1 h2]
    set a := start.toNat with ha
    set b := endIdx.toNat + 1 with hb
    have hab : a ≤ b := by omega
    set T := l.map g with hT
    have hmid : ((l.take b).drop a).map g = (T.take b).drop a := by
      rw [hT, List.map_drop, List.map_take]
    have hrep : (T.take b).drop a
        = List.replicate ((T.take b).drop a).length c :=
      slice_of_map_const hc
    have hmemc : ∀ x ∈ (l.take b).drop a, g x = c := by
      intro x hx
      have hgx : g x ∈ (T.take b).drop a := by
        rw [← hmid]
        exact List.mem_map_of_mem g hx
      rw [hrep] at hgx
      exact (List.mem_replicate.mp hgx).2
    have hfmid : (f ((l.take b).drop a)).map g = (T.take b).drop a := by
      rw [hrep, List.eq_replicate_iff]
      constructor
      · rw [List.length_map, (hf _).length_eq, ← hmid, List.length_map]
      · intro x hx
        rcases List.mem_map.mp hx with ⟨y, hy, rfl⟩
        exact hmemc y ((hf _).mem_iff.mp hy)
    rw [List.map_append, List.map_append, hfmid, List.map_take,
      List.map_drop, ← hT, List.append_assoc]
    exact slice_glue T hab

/-! ## Lexicographic string-comparison algebra -/

theorem charListLt_asymm : ∀ {a b : List Char},
    charListLt a b = true → charListLt b a = false := by
  intro a
  induction a with
  | nil =>
    intro b h
    cases b with
    | nil => simp [charListLt] at h
    | cons y ys => simp [charListLt]
  | cons x xs ih =>
    intro b h
    cases b with
    | nil => simp [charListLt] at h
    | cons y ys =>
      by_cases h1 : x.toNat < y.toNat
      · simp [charListLt, h1, Nat.lt_asymm h1]
      · by_cases h2 : y.toNat < x.toNat
        · simp [charListLt, h1, h2] at h
        · simp only [charListLt, if_neg h1, if_neg h2] at h
          simp [charListLt, h1, h2, ih h]

theorem charListLt_antisymm : ∀ {a b : List Char},
    charListLt a b = false → charListLt b a = false → a = b := by
  intro a
  induction a with
  | nil =>
    intro b h1 _
    cases b with
    | nil => rfl
    | cons y ys => simp [charListLt] at h1
  | cons x xs ih =>
    intro b h1 h2
    cases b with
    | nil => simp [charListLt] at h2
    | cons y ys =>
      by_cases hxy : x.toNat < y.toNat
      · simp [charListLt, hxy] at h1
      · by_cases hyx : y.toNat < x.toNat
        · simp [charListLt, hyx] at h2
        · have hn : x.toNat = y.toNat := by omega
          have hx : x = y := Char.ext (UInt32.ext hn)
          subst hx
          simp only [charListLt, if_neg hxy, if_neg hyx] at h1 h2
          rw [ih h1 h2]

theorem charListLt_le_trans : ∀ {a b c : List Char},
    charListLt b a = false → charListLt c b = false → charListLt c a = false := by
  intro a
  induction a with
  | nil =>
    intro b c _ _
    cases c <;> rfl
  | cons x xs ih =>
    intro b c h1 h2
    cases c with
    | nil =>
      cases b with
      | nil => simp [charListLt] at h1
      | cons y ys => simp [charListLt] at h2
    | cons z zs =>
      cases b with
      | nil => simp [charListLt] at h1
      | cons y ys =>
        by_cases hyx : y.toNat < x.toNat
        · simp [charListLt, hyx] at h1
        · by_cases hzy : z.toNat < y.toNat
          · simp [charListLt, hzy] at h2
          · by_cases hzx : z.toNat < x.toNat
            · omega
            · by_cases hxz : x.toNat < z.toNat
              · simp [charListLt, hzx, hxz]
              · have hxy : ¬ x.toNat < y.toNat := by omega
                have hyz : ¬ y.toNat < z.toNat := by omega
                simp only [charListLt, if_neg hyx, if_neg hxy] at h1
                simp only [charListLt, if_neg hzy, if_neg hyz] at h2
                simp only [charListLt, if_neg hzx, if_neg hxz]
                exact ih h1 h2

theorem strLt_asymm {s t : String} (h : strLt s t = true) : strLt t s = false :=
  charListLt_asymm h

theorem strLt_antisymm {s t : String} (h1 : strLt s t = false)
    (h2 : strLt t s = false) : s = t :=
  String.ext (charListLt_antisymm h1 h2)

theorem strLt_le_trans {s t u : String} (h1 : strLt t s = false)
    (h2 : strLt u t = false) : strLt u s = false :=
  charListLt_le_trans h1 h2

theorem strCmp_skew (s t : String) : strCmp t s = -strCmp s t := by
  unfold strCmp
  cases h1 : strLt s t with
  | true =>
    have h2 : strLt t s = false := strLt_asymm h1
    simp [h1, h2]
  | false =>
    cases h2 : strLt t s with
    | true => simp [h1, h2]
    | false => simp [h1, h2]

theorem strCmp_nonpos_iff {s t : String} :
    strCmp s t ≤ 0 ↔ strLt t s = false := by
  unfold strCmp
  cases h1 : strLt s t with
  | true =>
    have h2 : strLt t s = false := strLt_asymm h1
    simp [h1, h2]
  | false =>
    cases h2 : strLt t s with
    | true => simp [h1, h2]
    | false => simp [h1, h2]

theorem strCmp_le_trans {s t u : String}
    (h1 : strCmp s t ≤ 0) (h2 : strCmp t u ≤ 0) : strCmp s u ≤ 0 := by
  rw [strCmp_nonpos_iff] at h1 h2 ⊢
  exact strLt_le_trans h1 h2

theorem strCmp_le_antisymm {s t : String}
    (h1 : strCmp s t ≤ 0) (h2 : strCmp t s ≤ 0) : s = t := by
  rw [strCmp_nonpos_iff] at h1 h2
  exact strLt_antisymm h2 h1

/-! ## Lemmas about the classifier and the rank map -/

theorem clsClose_currTeam (st : ClsState) (p : Person) :
    (clsClose st p).currTeam.teamId = p.tid := by
  unfold clsClose
  split
  · rfl
  · rename_i h
    exact not_not.mp h

theorem clsStep_currTeam (st : ClsState) (p : Person) :
    (clsStep st p).currTeam.teamId = p.tid := by
  unfold clsStep clsBump
  exact clsClose_currTeam _ _

theorem clsReset_covered {st : ClsState} {p : Person} {t : String} (ht : t ≠ "")
    (h : (∃ s ∈ st.acc, s.teamId = some t) ∨ st.currTeam.teamId = some t) :
    (∃ s ∈ (clsReset st p).acc, s.teamId = some t)
      ∨ (clsReset st p).currTeam.teamId = some t := by
  unfold clsReset
  split
  · rename_i hf
    rcases h with hacc | hcur
    · exact Or.inl hacc
    · exfalso
      rcases hf with hf | hf
      · rw [hf] at hcur
        exact Option.noConfusion hcur
      · rw [hf] at hcur
        exact ht (Option.some.inj hcur).symm
  · exact h

theorem clsClose_covered {st : ClsState} {p : Person} {t : String}
    (h : (∃ s ∈ st.acc, s.teamId = some t) ∨ st.currTeam.teamId = some t) :
    (∃ s ∈ (clsClose st p).acc, s.teamId = some t)
      ∨ (clsClose st p).currTeam.teamId = some t := by
  unfold clsClose
  split
  · rcases h with ⟨s, hs, hst⟩ | hcur
    · exact Or.inl ⟨s, List.mem_append_left _ hs, hst⟩
    · exact Or.inl ⟨_, List.mem_append_right _ (List.mem_singleton_self _), hcur⟩
  · exact h

theorem clsStep_covered {st : ClsState} {p : Person} {t : String} (ht : t ≠ "")
    (h : (∃ s ∈ st.acc, s.teamId = some t) ∨ st.currTeam.teamId = some t) :
    (∃ s ∈ (clsStep st p).acc, s.teamId = some t)
      ∨ (clsStep st p).currTeam.teamId = some t := by
  unfold clsStep clsBump
  exact clsClose_covered (clsReset_covered ht h)

theorem foldl_clsStep_covered (r : List Person) (st : ClsState) {t : String}
    (ht : t ≠ "")
    (h : (∃ s ∈ st.acc, s.teamId = some t) ∨ st.currTeam.teamId = some t) :
    (∃ s ∈ (r.foldl clsStep st).acc, s.teamId = some t)
      ∨ (r.foldl clsStep st).currTeam.teamId = some t := by
  induction r generalizing st with
  | nil => exact h
  | cons p ps ih => exact ih (clsStep st p) (clsStep_covered ht h)

theorem rawSummaries_covers {people : List Person} {p : Person} {t : String}
    (hp : p ∈ people) (hpt : p.tid = some t) (ht : t ≠ "") :
    ∃ s ∈ rawSummaries people, s.teamId = some t := by
  rcases List.append_of_mem hp with ⟨l1, l2, rfl⟩
  have hsplit : (l1 ++ p :: l2).foldl clsStep clsInit
      = l2.foldl clsStep (clsStep (l1.foldl clsStep clsInit) p) := by
    rw [List.foldl_append, List.foldl_cons]
  have hcov := foldl_clsStep_covered l2
    (clsStep (l1.foldl clsStep clsInit) p) ht
    (Or.inr ((clsStep_currTeam _ p).trans hpt))
  unfold rawSummaries
  rw [hsplit]
  rcases hcov with ⟨s, hs, hst⟩ | hcur
  · exact ⟨s, List.mem_append_left _ hs, hst⟩
  · exact ⟨_, List.mem_append_right _ (List.mem_singleton_self _), hcur⟩

theorem sortTeamsByCategory_covers {people : List Person} {p : Person}
    {t : String} (hp : p ∈ people) (hpt : p.tid = some t) (ht : t ≠ "") :
    ∃ s ∈ sortTeamsByCategory people, s.teamId = some t := by
  rcases rawSummaries_covers hp hpt ht with ⟨s, hs, hst⟩
  exact ⟨s, (jsSort_perm categoryCmp (rawSummaries people)).mem_iff.mpr hs, hst⟩

theorem teamRankMap_eq_none_iff (list : List TeamSummary)
    (m : JSKey → Option Nat) (k : JSKey) :
    (list.foldl
        (fun m tp k =>
          if k = storeKey tp.teamId then some tp.category.toNat else m k) m) k
        = none
      ↔ (m k = none ∧ ∀ s ∈ list, storeKey s.teamId ≠ k) := by
  induction list generalizing m with
  | nil => simp
  | cons s ss ih =>
    rw [List.foldl_cons, ih]
    constructor
    · rintro ⟨hupd, hrest⟩
      by_cases hk : k = storeKey s.teamId
      · rw [if_pos hk] at hupd
        exact Option.noConfusion hupd
      · rw [if_neg hk] at hupd
        refine ⟨hupd, ?_⟩
        intro x hx
        rcases List.mem_cons.mp hx with rfl | hx
        · exact fun he => hk he.symm
        · exact hrest x hx
    · rintro ⟨hm, hall⟩
      have hk : storeKey s.teamId ≠ k := hall s (by simp)
      rw [if_neg (fun he => hk he.symm)]
      exact ⟨hm, fun x hx => hall x (List.mem_cons_of_mem _ hx)⟩

theorem TeamCategory.toNat_le_three (c : TeamCategory) : c.toNat ≤ 3 := by
  cases c <;> decide

theorem teamRankMap_le_three (list : List TeamSummary)
    (m : JSKey → Option Nat) (k : JSKey) {v : Nat}
    (hm : ∀ k v, m k = some v → v ≤ 3)
    (h : (list.foldl
        (fun m tp k =>
          if k = storeKey tp.teamId then some tp.category.toNat else m k) m) k
        = some v) :
    v ≤ 3 := by
  induction list generalizing m with
  | nil => exact hm k v h
  | cons s ss ih =>
    rw [List.foldl_cons] at h
    refine ih _ ?_ h
    intro k v hk
    by_cases hks : k = storeKey s.teamId
    · rw [if_pos hks] at hk
      rw [← Option.some.inj hk]
      exact TeamCategory.toNat_le_three _
    · rw [if_neg hks] at hk
      exact hm k v hk

theorem teamRankMap_jundef (list : List TeamSummary) :
    teamRankMap list JSKey.jundef = none := by
  unfold teamRankMap
  rw [teamRankMap_eq_none_iff]
  refine ⟨rfl, ?_⟩
  intro s _
  cases s.teamId <;> simp [storeKey]

theorem tidRank_teamless (list : List TeamSummary) :
    tidRank (teamRankMap list) none = MAX_SAFE_INTEGER := by
  unfold tidRank
  rw [show keyOfTid none = JSKey.jundef from rfl, teamRankMap_jundef]
  rfl

theorem rankOf_teamless (list : List TeamSummary) {p : Person}
    (hp : p.team = none) : rankOf (teamRankMap list) p = MAX_SAFE_INTEGER := by
  unfold rankOf
  rw [show p.tid = none from by simp [Person.tid, hp]]
  exact tidRank_teamless list

theorem tidRank_le_MAX (list : List TeamSummary) (t : Option String) :
    tidRank (teamRankMap list) t ≤ MAX_SAFE_INTEGER := by
  unfold tidRank
  cases h : teamRankMap list (keyOfTid t) with
  | none => exact le_refl _
  | some v =>
    have hv : v ≤ 3 := teamRankMap_le_three list _ _ (by simp) h
    have h3 : (3 : Nat) ≤ MAX_SAFE_INTEGER := by decide
    simp only [Option.getD_some]
    omega

theorem rankOf_le_MAX (list : List TeamSummary) (p : Person) :
    rankOf (teamRankMap list) p ≤ MAX_SAFE_INTEGER :=
  tidRank_le_MAX list p.tid

theorem rankOf_teamed_le_three {list : List TeamSummary} {p : Person}
    {t : String} (hpt : p.tid = some t)
    (hcov : ∃ s ∈ list, s.teamId = some t) :
    rankOf (teamRankMap list) p ≤ 3 := by
  have hne : teamRankMap list (JSKey.jstr t) ≠ none := by
    intro hnone
    unfold teamRankMap at hnone
    rw [teamRankMap_eq_none_iff] at hnone
    rcases hnone with ⟨-, hall⟩
    rcases hcov with ⟨s, hs, hst⟩
    exact hall s hs (by rw [hst]; rfl)
  rcases Option.ne_none_iff_exists'.mp hne with ⟨v, hv⟩
  have hv3 : v ≤ 3 := teamRankMap_le_three list _ _ (by simp) hv
  unfold rankOf tidRank
  rw [hpt, show keyOfTid (some t) = JSKey.jstr t from rfl, hv]
  simpa using hv3

/-! ## Sortedness of the category re-sort -/

theorem rankCmp_eq (m : JSKey → Option Nat) (a b : Person) :
    rankCmp m a b =
      if rankOf m a ≠ rankOf m b then (rankOf m a : Int) - (rankOf m b : Int)
      else rankTie a b := rfl

theorem rankTie_skew (a b : Person) : rankTie b a = -rankTie a b := by
  unfold rankTie
  cases a.team with
  | none => cases b.team <;> rfl
  | some ta =>
    cases b.team with
    | none => rfl
    | some tb => exact strCmp_skew ta.id tb.id

theorem rankCmp_skew (m : JSKey → Option Nat) (a b : Person) :
    rankCmp m b a = -rankCmp m a b := by
  rw [rankCmp_eq, rankCmp_eq]
  by_cases h : rankOf m a = rankOf m b
  · rw [if_neg (by simpa using h.symm), if_neg (by simpa using h)]
    exact rankTie_skew a b
  · rw [if_pos (by simpa using Ne.symm h), if_pos (by simpa using h)]
    ring

theorem rankCmp_le_trans {m : JSKey → Option Nat} {a b c : Person}
    (hbt : b.team = none → rankOf m b = MAX_SAFE_INTEGER)
    (ha3 : a.team ≠ none → rankOf m a ≤ 3)
    (h1 : rankCmp m a b ≤ 0) (h2 : rankCmp m b c ≤ 0) :
    rankCmp m a c ≤ 0 := by
  rw [rankCmp_eq] at h1 h2 ⊢
  by_cases hab : rankOf m a = rankOf m b
  · rw [if_neg (by simpa using hab)] at h1
    by_cases hbc : rankOf m b = rankOf m c
    · rw [if_neg (by simpa using hbc)] at h2
      rw [if_neg (by simpa using hab.trans hbc)]
      unfold rankTie at h1 h2 ⊢
      cases hat : a.team with
      | none => cases c.team <;> simp
      | some ta =>
        cases hct : c.team with
        | none => simp
        | some tc =>
          cases hbteam : b.team with
          | none =>
            exfalso
            have hmb : rankOf m b = MAX_SAFE_INTEGER := hbt hbteam
            have hma : rankOf m a ≤ 3 := ha3 (by simp [hat])
            have h3 : (3 : Nat) < MAX_SAFE_INTEGER := by decide
            omega
          | some tb =>
            rw [hat, hbteam] at h1
            rw [hbteam, hct] at h2
            have h1s : strCmp ta.id tb.id ≤ 0 := h1
            have h2s : strCmp tb.id tc.id ≤ 0 := h2
            exact strCmp_le_trans h1s h2s
    · rw [if_pos (by simpa using hbc)] at h2
      rw [if_pos (show rankOf m a ≠ rankOf m c by omega)]
      omega
  · rw [if_pos (by simpa using hab)] at h1
    by_cases hbc : rankOf m b = rankOf m c
    · rw [if_pos (show rankOf m a ≠ rankOf m c by omega)]
      omega
    · rw [if_pos (by simpa using hbc)] at h2
      rw [if_pos (show rankOf m a ≠ rankOf m c by omega)]
      omega

theorem mem_groupedPeople {people : List Person} {p : Person}
    (h : p ∈ groupedPeople people) : p ∈ people :=
  (jsSort_perm sortByTeamAndDogStatus people).mem_iff.mp h

theorem mem_rankSorted {people : List Person} {p : Person}
    (h : p ∈ rankSorted people) : p ∈ people :=
  mem_groupedPeople ((jsSort_perm _ (groupedPeople people)).mem_iff.mp h)

theorem layoutRank_teamed_le_three {people : List Person} {p : Person}
    (hp : p ∈ groupedPeople people)
    (hne : p.tid ≠ some "") (ht : p.team ≠ none) :
    layoutRank people p ≤ 3 := by
  rcases Option.ne_none_iff_exists'.mp ht with ⟨T, hT⟩
  have htid : p.tid = some T.id := by simp [Person.tid, hT]
  have hTne : T.id ≠ "" := by
    intro h0
    exact hne (by rw [htid, h0])
  exact rankOf_teamed_le_three htid
    (sortTeamsByCategory_covers hp htid hTne)

theorem layoutRank_teamless {people : List Person} {p : Person}
    (hp : p.team = none) : layoutRank people p = MAX_SAFE_INTEGER :=
  rankOf_teamless _ hp

theorem rankSorted_pairwise (people : List Person)
    (hne : ∀ p ∈ people, p.tid ≠ some "") :
    List.Pairwise (fun a b => rankCmp (layoutRankMap people) a b ≤ 0)
      (rankSorted people) := by
  unfold rankSorted
  refine jsSort_pairwise (rankCmp_skew _) ?_
  intro a b c hag hbg hcg h1 h2
  refine rankCmp_le_trans ?_ ?_ h1 h2
  · intro hb
    exact layoutRank_teamless hb
  · intro ha
    exact layoutRank_teamed_le_three hag (hne a (mem_groupedPeople hag)) ha

/-! ## Consequences of the re-sort's sortedness -/

theorem Person.tid_none_iff {p : Person} : p.tid = none ↔ p.team = none := by
  cases h : p.team <;> simp [Person.tid, h]

theorem Person.tid_some_iff {p : Person} {t : String} :
    p.tid = some t ↔ ∃ T, p.team = some T ∧ T.id = t := by
  cases h : p.team <;> simp [Person.tid, h]

theorem tidAt_get {l : List Person} {i : Nat} (h : i < l.length) :
    tidAt l i = (l.get ⟨i, h⟩).tid := by
  unfold tidAt
  rw [List.getD_eq_getElem _ _ (by simpa using h)]
  simp

theorem layoutRank_eq_tidRank (people : List Person) (p : Person) :
    layoutRank people p = tidRank (layoutRankMap people) p.tid := rfl

theorem rankCmp_nonpos_rank_le {m : JSKey → Option Nat} {a b : Person}
    (h : rankCmp m a b ≤ 0) : rankOf m a ≤ rankOf m b := by
  rw [rankCmp_eq] at h
  by_cases heq : rankOf m a = rankOf m b
  · omega
  · rw [if_pos (by simpa using heq)] at h
    omega

theorem rankCmp_nonpos_tie {m : JSKey → Option Nat} {a b : Person}
    (h : rankCmp m a b ≤ 0) (heq : rankOf m a = rankOf m b) :
    rankTie a b ≤ 0 := by
  rw [rankCmp_eq, if_neg (by simpa using heq)] at h
  exact h

theorem rankTie_some {a b : Person} {Ta Tb : Team}
    (ha : a.team = some Ta) (hb : b.team = some Tb) :
    rankTie a b = strCmp Ta.id Tb.id := by
  unfold rankTie
  rw [ha, hb]

theorem mem_rankSorted_grouped {people : List Person} {p : Person}
    (h : p ∈ rankSorted people) : p ∈ groupedPeople people :=
  (jsSort_perm _ (groupedPeople people)).mem_iff.mp h

theorem rankSorted_rank_le {people : List Person}
    (hne : ∀ p ∈ people, p.tid ≠ some "")
    (i j : Fin (rankSorted people).length) (hij : i < j) :
    layoutRank people ((rankSorted people).get i)
      ≤ layoutRank people ((rankSorted people).get j) :=
  rankCmp_nonpos_rank_le
    (List.pairwise_iff_get.mp (rankSorted_pairwise people hne) i j hij)

theorem layoutRank_le_MAX (people : List Person) (p : Person) :
    layoutRank people p ≤ MAX_SAFE_INTEGER :=
  rankOf_le_MAX _ p

theorem layoutRank_teamed_ne_MAX {people : List Person} {p : Person}
    (hp : p ∈ groupedPeople people) (hne : p.tid ≠ some "")
    (ht : p.team ≠ none) : layoutRank people p ≠ MAX_SAFE_INTEGER := by
  have h3 := layoutRank_teamed_le_three hp hne ht
  have hM : (3 : Nat) < MAX_SAFE_INTEGER := by decide
  omega

theorem rankSorted_teamless_suffix {people : List Person}
    (hne : ∀ p ∈ people, p.tid ≠ some "") {i j : Nat} (hij : i < j)
    (hj : j < (rankSorted people).length)
    (hi0 : tidAt (rankSorted people) i = none) :
    tidAt (rankSorted people) j = none := by
  have hi : i < (rankSorted people).length := lt_trans hij hj
  rw [tidAt_get hi] at hi0
  rw [tidAt_get hj]
  set a := (rankSorted people).get ⟨i, hi⟩ with ha
  set b := (rankSorted people).get ⟨j, hj⟩ with hb
  have hateam : a.team = none := Person.tid_none_iff.mp hi0
  have hra : layoutRank people a = MAX_SAFE_INTEGER := layoutRank_teamless hateam
  have hle : layoutRank people a ≤ layoutRank people b :=
    rankSorted_rank_le hne ⟨i, hi⟩ ⟨j, hj⟩ hij
  have hbM : layoutRank people b = MAX_SAFE_INTEGER := by
    have := layoutRank_le_MAX people b
    omega
  by_contra hbt
  have hbteam : b.team ≠ none := fun h => hbt (Person.tid_none_iff.mpr h)
  have hbmem : b ∈ rankSorted people := (rankSorted people).get_mem j hj
  exact layoutRank_teamed_ne_MAX (mem_rankSorted_grouped hbmem)
    (hne b (mem_rankSorted hbmem)) hbteam hbM

theorem rankSorted_teamContiguous {people : List Person}
    (hne : ∀ p ∈ people, p.tid ≠ some "") :
    TeamContiguous (rankSorted people) := by
  intro k hk j hjk i hij heq
  set l := rankSorted people with hl
  have hj : j < l.length := lt_trans hjk hk
  have hi : i < l.length := lt_trans hij hj
  by_cases hcase : tidAt l i = none
  · rw [rankSorted_teamless_suffix hne hij hj hcase, hcase]
  · rcases Option.ne_none_iff_exists'.mp hcase with ⟨t, ht⟩
    have hamem : l.get ⟨i, hi⟩ ∈ l := l.get_mem i hi
    have hbmem : l.get ⟨j, hj⟩ ∈ l := l.get_mem j hj
    have hcmem : l.get ⟨k, hk⟩ ∈ l := l.get_mem k hk
    have hta : (l.get ⟨i, hi⟩).tid = some t := by rw [← tidAt_get hi, ht]
    have htc : (l.get ⟨k, hk⟩).tid = some t := by
      rw [← tidAt_get hk, ← heq, ht]
    have htne : t ≠ "" := by
      intro h0
      exact hne _ (mem_rankSorted hamem) (by rw [hta, h0])
    have hra3 : layoutRank people (l.get ⟨i, hi⟩) ≤ 3 := by
      refine layoutRank_teamed_le_three (mem_rankSorted_grouped hamem)
        (hne _ (mem_rankSorted hamem)) ?_
      intro h0
      rw [Person.tid_none_iff.mpr h0] at hta
      exact Option.noConfusion hta
    have hrac : layoutRank people (l.get ⟨i, hi⟩)
        = layoutRank people (l.get ⟨k, hk⟩) := by
      rw [layoutRank_eq_tidRank, layoutRank_eq_tidRank, hta, htc]
    have h1 : layoutRank people (l.get ⟨i, hi⟩)
        ≤ layoutRank people (l.get ⟨j, hj⟩) :=
      rankSorted_rank_le hne ⟨i, hi⟩ ⟨j, hj⟩ hij
    have h2 : layoutRank people (l.get ⟨j, hj⟩)
        ≤ layoutRank people (l.get ⟨k, hk⟩) :=
      rankSorted_rank_le hne ⟨j, hj⟩ ⟨k, hk⟩ hjk
    have hrb : layoutRank people (l.get ⟨i, hi⟩)
        = layoutRank people (l.get ⟨j, hj⟩) := by omega
    have hbteam : (l.get ⟨j, hj⟩).team ≠ none := by
      intro h0
      have : layoutRank people (l.get ⟨j, hj⟩) = MAX_SAFE_INTEGER :=
        layoutRank_teamless h0
      have hM : (3 : Nat) < MAX_SAFE_INTEGER := by decide
      omega
    rcases Option.ne_none_iff_exists'.mp hbteam with ⟨Tb, hTb⟩
    rcases Person.tid_some_iff.mp hta with ⟨Ta, hTa, hTaid⟩
    rcases Person.tid_some_iff.mp htc with ⟨Tc, hTc, hTcid⟩
    have htie1 : rankTie (l.get ⟨i, hi⟩) (l.get ⟨j, hj⟩) ≤ 0 :=
      rankCmp_nonpos_tie
        (List.pairwise_iff_get.mp (rankSorted_pairwise people hne)
          ⟨i, hi⟩ ⟨j, hj⟩ hij) hrb
    have hrjk : layoutRank people (l.get ⟨j, hj⟩)
        = layoutRank people (l.get ⟨k, hk⟩) := by omega
    have htie2 : rankTie (l.get ⟨j, hj⟩) (l.get ⟨k, hk⟩) ≤ 0 :=
      rankCmp_nonpos_tie
        (List.pairwise_iff_get.mp (rankSorted_pairwise people hne)
          ⟨j, hj⟩ ⟨k, hk⟩ hjk) hrjk
    rw [rankTie_some hTa hTb, hTaid] at htie1
    rw [rankTie_some hTb hTc, hTcid] at htie2
    have hub : Tb.id = t := (strCmp_le_antisymm htie2 htie1).symm ▸ rfl
    rw [tidAt_get hj, ht]
    rw [Person.tid_some_iff]
    exact ⟨Tb, hTb, hub⟩

/-! ## The interleaving pass: permutation and call-bound invariants -/

theorem scanReset_updatedPeople (st : ScanState) (p : Person) :
    (scanReset st p).updatedPeople = st.updatedPeople := by
  unfold scanReset
  split <;> rfl

theorem scanReset_startPointer (st : ScanState) (p : Person) :
    (scanReset st p).startPointer = st.startPointer := by
  unfold scanReset
  split <;> rfl

theorem scanReset_startSearchFlag (st : ScanState) (p : Person) :
    (scanReset st p).startSearchFlag = st.startSearchFlag := by
  unfold scanReset
  split <;> rfl

theorem scanReset_calls (st : ScanState) (p : Person) :
    (scanReset st p).calls = st.calls := by
  unfold scanReset
  split <;> rfl

theorem scanFlush_spec {l0 : List Person} {st : ScanState} {i : Nat}
    {p : Person}
    (hperm : st.updatedPeople.Perm l0)
    (hflag : st.startSearchFlag = true → st.startPointer < i)
    (hcalls : ∀ c ∈ st.calls, CallOK c)
    (hi : i < l0.length) :
    (scanFlush st i p).updatedPeople.Perm l0
      ∧ ((scanFlush st i p).startSearchFlag = true →
          (scanFlush st i p).startPointer < i)
      ∧ (∀ c ∈ (scanFlush st i p).calls, CallOK c) := by
  unfold scanFlush
  split
  · rename_i hcond
    have hsp : st.startPointer < i := hflag hcond.1
    have hlen : st.updatedPeople.length = l0.length := hperm.length_eq
    refine ⟨?_, ?_, ?_⟩
    · exact (reorderSubArray_perm _ _ _ _
        insertPeopleWithDogLogic_perm).trans hperm
    · intro hf
      simp at hf
    · intro c hc
      simp only [List.mem_append, List.mem_singleton] at hc
      rcases hc with hc | hc
      · exact hcalls c hc
      · subst hc
        refine ⟨?_, ?_, ?_⟩
        · show (0 : Int) ≤ (st.startPointer : Int)
          omega
        · show (st.startPointer : Int) ≤ (i : Int) - 1
          omega
        · show (i : Int) - 1 < (st.updatedPeople.length : Int)
          omega
  · exact ⟨hperm, hflag, hcalls⟩

theorem scanStart_fields (st : ScanState) (i : Nat) (p : Person) :
    (scanStart st i p).updatedPeople = st.updatedPeople
      ∧ (scanStart st i p).calls = st.calls := by
  unfold scanStart
  split <;> exact ⟨rfl, rfl⟩

theorem scanStart_flag {st : ScanState} {i : Nat} {p : Person}
    (h : st.startSearchFlag = true → st.startPointer < i) :
    (scanStart st i p).startSearchFlag = true →
      (scanStart st i p).startPointer < i + 1 := by
  unfold scanStart
  split
  · intro _
    exact Nat.lt_succ_self i
  · intro hf
    exact Nat.lt_succ_of_lt (h hf)

theorem scanStep_spec {l0 : List Person} {st : ScanState} {i : Nat}
    {p : Person}
    (hperm : st.updatedPeople.Perm l0)
    (hflag : st.startSearchFlag = true → st.startPointer < i)
    (hcalls : ∀ c ∈ st.calls, CallOK c)
    (hi : i < l0.length) :
    (scanStep st i p).updatedPeople.Perm l0
      ∧ ((scanStep st i p).startSearchFlag = true →
          (scanStep st i p).startPointer < i + 1)
      ∧ (∀ c ∈ (scanStep st i p).calls, CallOK c) := by
  unfold scanStep
  have h0u := scanReset_updatedPeople st p
  have h0p := scanReset_startPointer st p
  have h0f := scanReset_startSearchFlag st p
  have h0c := scanReset_calls st p
  have h1 := @scanFlush_spec l0 (scanReset st p) i p
    (by rw [h0u]; exact hperm)
    (by rw [h0f, h0p]; exact hflag)
    (by rw [h0c]; exact hcalls) hi
  rcases h1 with ⟨h1u, h1f, h1c⟩
  have h2 := scanStart_fields (scanFlush (scanReset st p) i p) i p
  refine ⟨?_, scanStart_flag h1f, ?_⟩
  · rw [h2.1]
    exact h1u
  · rw [h2.2]
    exact h1c

theorem scanGo_spec (l0 : List Person) :
    ∀ (r done : List Person) (st : ScanState),
      l0 = done ++ r →
      st.updatedPeople.Perm l0 →
      (st.startSearchFlag = true → st.startPointer < done.length) →
      (∀ c ∈ st.calls, CallOK c) →
      (scanGo st done.length r).updatedPeople.Perm l0
        ∧ ((scanGo st done.length r).startSearchFlag = true →
            (scanGo st done.length r).startPointer < l0.length)
        ∧ (∀ c ∈ (scanGo st done.length r).calls, CallOK c) := by
  intro r
  induction r with
  | nil =>
    intro done st hsplit hperm hflag hcalls
    have hdone : done.length = l0.length := by
      rw [hsplit]
      simp
    rw [show scanGo st done.length [] = st from rfl]
    exact ⟨hperm, by rw [← hdone]; exact hflag, hcalls⟩
  | cons p ps ih =>
    intro done st hsplit hperm hflag hcalls
    have hi : done.length < l0.length := by
      rw [hsplit, List.length_append]
      simp
    have hstep := @scanStep_spec l0 st done.length p
      hperm hflag hcalls hi
    have hsplit2 : l0 = (done ++ [p]) ++ ps := by
      rw [hsplit, List.append_assoc]
      rfl
    have hlen2 : (done ++ [p]).length = done.length + 1 := by simp
    have hrec := ih (done ++ [p]) (scanStep st done.length p) hsplit2
      hstep.1 (by rw [hlen2]; exact hstep.2.1) hstep.2.2
    rw [hlen2] at hrec
    exact hrec

theorem runScan_spec (l0 : List Person) :
    (runScan l0).updatedPeople.Perm l0
      ∧ (∀ c ∈ (runScan l0).calls, CallOK c) := by
  have hgo := scanGo_spec l0 l0 [] (scanInit l0) rfl (List.Perm.refl l0)
    (by intro h; simp [scanInit] at h) (by intro c hc; simp [scanInit] at hc)
  have hperm : (scanGo (scanInit l0) 0 l0).updatedPeople.Perm l0 := hgo.1
  have hflag : (scanGo (scanInit l0) 0 l0).startSearchFlag = true →
      (scanGo (scanInit l0) 0 l0).startPointer < l0.length := hgo.2.1
  have hcalls : ∀ c ∈ (scanGo (scanInit l0) 0 l0).calls, CallOK c := hgo.2.2
  unfold runScan
  set S := scanGo (scanInit l0) 0 l0 with hS
  unfold terminalFlush
  split
  · rename_i hfl
    have hsp : S.startPointer < l0.length := hflag hfl
    have hlen : S.updatedPeople.length = l0.length := hperm.length_eq
    constructor
    · exact (reorderSubArray_perm _ _ _ _
        insertPeopleWithDogLogic_perm).trans hperm
    · intro c hc
      simp only [List.mem_append, List.mem_singleton] at hc
      rcases hc with hc | hc
      · exact hcalls c hc
      · subst hc
        refine ⟨?_, ?_, ?_⟩
        · show (0 : Int) ≤ (S.startPointer : Int)
          omega
        · show (S.startPointer : Int) ≤ (S.updatedPeople.length : Int) - 1
          omega
        · show (S.updatedPeople.length : Int) - 1
              < (S.updatedPeople.length : Int)
          omega
  · exact ⟨hperm, hcalls⟩

theorem interleavePass_perm (l0 : List Person) :
    (interleavePass l0).Perm l0 :=
  (runScan_spec l0).1

theorem runScan_calls_ok (l0 : List Person) :
    ∀ c ∈ (runScan l0).calls, CallOK c :=
  (runScan_spec l0).2

/-! ## The interleaving pass preserves the per-position team id -/

theorem getD_append_length {α : Type} (l1 l2 : List α) (x d : α) :
    (l1 ++ x :: l2).getD l1.length d = x := by
  rw [List.getD_eq_getElem _ _ (by simp)]
  rw [List.getElem_append_right (le_refl l1.length)]
  simp

theorem tidAt_append_cons (done ps : List Person) (p : Person) :
    tidAt (done ++ p :: ps) done.length = p.tid := by
  unfold tidAt
  rw [List.map_append, List.map_cons]
  have hlen : (done.map Person.tid).length = done.length := by simp
  rw [← hlen]
  exact getD_append_length _ _ _ _

theorem scanStep_rich {l0 : List Person}
    (Hne : ∀ q ∈ l0, q.tid ≠ some "")
    (Hsuf : ∀ a b, a < b → b < l0.length → tidAt l0 a = none →
      tidAt l0 b = none)
    {st : ScanState} {i : Nat} {p : Person}
    (hi : i < l0.length)
    (hp : tidAt l0 i = p.tid)
    (I1 : st.updatedPeople.map Person.tid = l0.map Person.tid)
    (I2 : st.startSearchFlag = true → st.startPointer < i ∧
      ∀ k, st.startPointer ≤ k → k < i → tidAt l0 k = st.currTeam) :
    (scanStep st i p).updatedPeople.map Person.tid = l0.map Person.tid
      ∧ ((scanStep st i p).startSearchFlag = true →
          (scanStep st i p).startPointer < i + 1 ∧
          ∀ k, (scanStep st i p).startPointer ≤ k → k < i + 1 →
            tidAt l0 k = (scanStep st i p).currTeam) := by
  have h0u := scanReset_updatedPeople st p
  have h0p := scanReset_startPointer st p
  have h0f := scanReset_startSearchFlag st p
  have h0ct : st.startSearchFlag = true →
      (scanReset st p).currTeam = st.currTeam := by
    intro hfl
    rcases I2 hfl with ⟨hsp, hrange⟩
    unfold scanReset
    by_cases hrf : st.currTeam = none ∨ st.currTeam = some ""
    · rw [if_pos hrf]
      rcases hrf with hrf | hrf
      · have hspt : tidAt l0 st.startPointer = none := by
          rw [hrange st.startPointer (le_refl _) hsp, hrf]
        have hit : tidAt l0 i = none := Hsuf _ _ hsp hi hspt
        show p.tid = st.currTeam
        rw [hrf, ← hp, hit]
      · exfalso
        have hsl : st.startPointer < l0.length := lt_trans hsp hi
        have hbad : tidAt l0 st.startPointer = some "" := by
          rw [hrange st.startPointer (le_refl _) hsp, hrf]
        rw [tidAt_get hsl] at hbad
        exact Hne _ (l0.get_mem _ _) hbad
    · rw [if_neg hrf]
  unfold scanStep
  by_cases hfl : st.startSearchFlag = true
  · have hct := h0ct hfl
    rcases I2 hfl with ⟨hsp, hrange⟩
    have h0fl : (scanReset st p).startSearchFlag = true := by
      rw [h0f]
      exact hfl
    by_cases hC : p.tid ≠ (scanReset st p).currTeam ∨
        (p.tid = (scanReset st p).currTeam ∧ p.dogStatus = DogStatus.AVOID)
    · -- the run is flushed at this index
      have hst1 : scanFlush (scanReset st p) i p =
          { scanReset st p with
            updatedPeople :=
              reorderSubArray (scanReset st p).updatedPeople
                ((scanReset st p).startPointer : Int) ((i : Int) - 1)
                insertPeopleWithDogLogic
          , calls := (scanReset st p).calls ++
              [⟨((scanReset st p).startPointer : Int), (i : Int) - 1,
                (scanReset st p).updatedPeople.length⟩]
          , startSearchFlag := false } := by
        unfold scanFlush
        rw [if_pos ⟨h0fl, hC⟩]
      have hmap1 : (scanFlush (scanReset st p) i p).updatedPeople.map Person.tid
          = l0.map Person.tid := by
        rw [hst1]
        show (reorderSubArray (scanReset st p).updatedPeople
            ((scanReset st p).startPointer : Int) ((i : Int) - 1)
            insertPeopleWithDogLogic).map Person.tid = l0.map Person.tid
        rw [h0u, h0p]
        rw [reorderSubArray_map_const Person.tid st.updatedPeople
          (st.startPointer : Int) ((i : Int) - 1) insertPeopleWithDogLogic
          insertPeopleWithDogLogic_perm st.currTeam ?_]
        · exact I1
        · intro k hk hk1 hk2
          have hk1n : st.startPointer ≤ k := by omega
          have hk2n : k < i := by omega
          rw [← List.getD_eq_getElem _ none hk, I1]
          exact hrange k hk1n hk2n
      -- after the flush the flag is down; the third statement may reopen
      unfold scanStart
      by_cases hS : ¬ (scanFlush (scanReset st p) i p).startSearchFlag
          ∧ p.dogStatus ≠ DogStatus.AVOID
      · rw [if_pos hS]
        refine ⟨hmap1, ?_⟩
        intro _
        constructor
        · show i < i + 1
          exact Nat.lt_succ_self i
        · intro k hk1 hk2
          have hk : k = i := by
            have : i ≤ k := hk1
            omega
          subst hk
          exact hp
      · rw [if_neg hS]
        refine ⟨hmap1, ?_⟩
        intro hbad
        rw [hst1] at hbad
        simp at hbad
    · -- no flush: the run continues through this index
      have hnoC : p.tid = (scanReset st p).currTeam := by
        rcases not_or.mp hC with ⟨h1, -⟩
        exact not_not.mp h1
      have hst1 : scanFlush (scanReset st p) i p = scanReset st p := by
        unfold scanFlush
        rw [if_neg]
        intro hcc
        exact hC hcc.2
      have hst2 : scanStart (scanFlush (scanReset st p) i p) i p
          = scanFlush (scanReset st p) i p := by
        unfold scanStart
        rw [if_neg]
        intro hcc
        rw [hst1] at hcc
        exact hcc.1 h0fl
      rw [hst2, hst1]
      refine ⟨by rw [h0u]; exact I1, ?_⟩
      intro _
      rw [h0p]
      refine ⟨Nat.lt_succ_of_lt hsp, ?_⟩
      intro k hk1 hk2
      rcases Nat.lt_succ_iff_lt_or_eq.mp hk2 with hk2 | hk2
      · rw [hct]
        exact hrange k hk1 hk2
      · subst hk2
        rw [← hnoC]
        exact hp
  · -- no run is open at this index
    have hflf : st.startSearchFlag = false := by
      simpa using hfl
    have h0flf : (scanReset st p).startSearchFlag = false := by
      rw [h0f]
      exact hflf
    have hst1 : scanFlush (scanReset st p) i p = scanReset st p := by
      unfold scanFlush
      rw [if_neg]
      intro hcc
      rw [h0flf] at hcc
      exact Bool.noConfusion hcc.1
    unfold scanStart
    rw [hst1]
    by_cases hS : ¬ (scanReset st p).startSearchFlag
        ∧ p.dogStatus ≠ DogStatus.AVOID
    · rw [if_pos hS]
      refine ⟨by rw [h0u]; exact I1, ?_⟩
      intro _
      constructor
      · show i < i + 1
        exact Nat.lt_succ_self i
      · intro k hk1 hk2
        have hk : k = i := by
          have : i ≤ k := hk1
          omega
        subst hk
        exact hp
    · rw [if_neg hS]
      refine ⟨by rw [h0u]; exact I1, ?_⟩
      intro hbad
      rw [h0flf] at hbad
      exact Bool.noConfusion hbad

theorem scanGo_rich {l0 : List Person}
    (Hne : ∀ q ∈ l0, q.tid ≠ some "")
    (Hsuf : ∀ a b, a < b → b < l0.length → tidAt l0 a = none →
      tidAt l0 b = none) :
    ∀ (r done : List Person) (st : ScanState),
      l0 = done ++ r →
      st.updatedPeople.map Person.tid = l0.map Person.tid →
      (st.startSearchFlag = true → st.startPointer < done.length ∧
        ∀ k, st.startPointer ≤ k → k < done.length →
          tidAt l0 k = st.currTeam) →
      (scanGo st done.length r).updatedPeople.map Person.tid
          = l0.map Person.tid
        ∧ ((scanGo st done.length r).startSearchFlag = true →
            (scanGo st done.length r).startPointer < l0.length ∧
            ∀ k, (scanGo st done.length r).startPointer ≤ k →
              k < l0.length →
              tidAt l0 k = (scanGo st done.length r).currTeam) := by
  intro r
  induction r with
  | nil =>
    intro done st hsplit I1 I2
    have hdone : done.length = l0.length := by
      rw [hsplit]
      simp
    rw [show scanGo st done.length [] = st from rfl]
    exact ⟨I1, by rw [← hdone]; exact I2⟩
  | cons p ps ih =>
    intro done st hsplit I1 I2
    have hi : done.length < l0.length := by
      rw [hsplit, List.length_append]
      simp
    have hp : tidAt l0 done.length = p.tid := by
      rw [hsplit]
      exact tidAt_append_cons done ps p
    have hstep := scanStep_rich Hne Hsuf hi hp I1 I2
    have hsplit2 : l0 = (done ++ [p]) ++ ps := by
      rw [hsplit, List.append_assoc]
      rfl
    have hlen2 : (done ++ [p]).length = done.length + 1 := by simp
    have hrec := ih (done ++ [p]) (scanStep st done.length p) hsplit2
      hstep.1 (by rw [hlen2]; exact hstep.2)
    rw [hlen2] at hrec
    exact hrec

theorem interleavePass_tids {l0 : List Person}
    (Hne : ∀ q ∈ l0, q.tid ≠ some "")
    (Hsuf : ∀ a b, a < b → b < l0.length → tidAt l0 a = none →
      tidAt l0 b = none) :
    (interleavePass l0).map Person.tid = l0.map Person.tid := by
  have hgo := scanGo_rich Hne Hsuf l0 [] (scanInit l0) rfl rfl
    (by intro h; simp [scanInit] at h)
  have I1 : (scanGo (scanInit l0) 0 l0).updatedPeople.map Person.tid
      = l0.map Person.tid := hgo.1
  have I2 : (scanGo (scanInit l0) 0 l0).startSearchFlag = true →
      (scanGo (scanInit l0) 0 l0).startPointer < l0.length ∧
      ∀ k, (scanGo (scanInit l0) 0 l0).startPointer ≤ k → k < l0.length →
        tidAt l0 k = (scanGo (scanInit l0) 0 l0).currTeam := hgo.2
  unfold interleavePass runScan
  set S := scanGo (scanInit l0) 0 l0 with hS
  unfold terminalFlush
  split
  · rename_i hfl
    rcases I2 hfl with ⟨hsp, hrange⟩
    have hlen : S.updatedPeople.length = l0.length := by
      rw [← List.length_map S.updatedPeople Person.tid, I1]
      simp
    show (reorderSubArray S.updatedPeople (S.startPointer : Int)
        ((S.updatedPeople.length : Int) - 1)
        insertPeopleWithDogLogic).map Person.tid = l0.map Person.tid
    rw [reorderSubArray_map_const Person.tid S.updatedPeople
      (S.startPointer : Int) ((S.updatedPeople.length : Int) - 1)
      insertPeopleWithDogLogic insertPeopleWithDogLogic_perm S.currTeam ?_]
    · exact I1
    · intro k hk hk1 hk2
      have hk1n : S.startPointer ≤ k := by omega
      have hk2n : k < l0.length := by
        rw [List.length_map] at hk
        omega
      rw [← List.getD_eq_getElem _ none hk, I1]
      exact hrange k hk1n hk2n
  · exact I1

/-! ## Transporting layout facts across the interleaving pass -/

theorem calculateDeskLayout_eq_pass (people : List Person) :
    calculateDeskLayout people = interleavePass (rankSorted people) := rfl

theorem rankSorted_hne {people : List Person}
    (hne : ∀ p ∈ people, p.tid ≠ some "") :
    ∀ q ∈ rankSorted people, q.tid ≠ some "" :=
  fun q hq => hne q (mem_rankSorted hq)

theorem calculateDeskLayout_tids {people : List Person}
    (hne : ∀ p ∈ people, p.tid ≠ some "") :
    (calculateDeskLayout people).map Person.tid
      = (rankSorted people).map Person.tid := by
  rw [calculateDeskLayout_eq_pass]
  exact interleavePass_tids (rankSorted_hne hne)
    (fun a b hab hb h0 => rankSorted_teamless_suffix hne hab hb h0)

theorem teamContiguous_of_tids_eq {l1 l2 : List Person}
    (h : l1.map Person.tid = l2.map Person.tid)
    (hc : TeamContiguous l2) : TeamContiguous l1 := by
  have hlen : l1.length = l2.length := by
    rw [← List.length_map l1 Person.tid, h, List.length_map]
  have ht : ∀ n, tidAt l1 n = tidAt l2 n := by
    intro n
    unfold tidAt
    rw [h]
  intro k hk j hjk i hij heq
  rw [ht, ht]
  exact hc k (by omega) j hjk i hij (by rw [← ht, ← ht]; exact heq)

theorem pairwise_tid_transport {Rt : Option String → Option String → Prop}
    {l1 l2 : List Person}
    (h : l1.map Person.tid = l2.map Person.tid)
    (hp : List.Pairwise (fun p q => Rt p.tid q.tid) l2) :
    List.Pairwise (fun p q => Rt p.tid q.tid) l1 := by
  have h1 : List.Pairwise Rt (l2.map Person.tid) := List.pairwise_map.mpr hp
  rw [← h] at h1
  exact List.pairwise_map.mp h1

theorem rankSorted_rank_pairwise {people : List Person}
    (hne : ∀ p ∈ people, p.tid ≠ some "") :
    List.Pairwise
      (fun p q => layoutRank people p ≤ layoutRank people q)
      (rankSorted people) :=
  (rankSorted_pairwise people hne).imp (fun h => rankCmp_nonpos_rank_le h)

theorem layout_rank_pairwise {people : List Person}
    (hne : ∀ p ∈ people, p.tid ≠ some "") :
    List.Pairwise
      (fun p q => layoutRank people p ≤ layoutRank people q)
      (calculateDeskLayout people) := by
  have h2 : List.Pairwise
      (fun p q => tidRank (layoutRankMap people) p.tid
        ≤ tidRank (layoutRankMap people) q.tid)
      (rankSorted people) :=
    (rankSorted_rank_pairwise hne).imp (fun h => h)
  have h1 := @pairwise_tid_transport
    (fun a b => tidRank (layoutRankMap people) a
      ≤ tidRank (layoutRankMap people) b) _ _
    (calculateDeskLayout_tids hne) h2
  exact h1.imp (fun h => h)

theorem rankSorted_teamless_last {people : List Person}
    (hne : ∀ p ∈ people, p.tid ≠ some "") :
    TeamlessLast (rankSorted people) := by
  refine (rankSorted_rank_pairwise hne).imp_of_mem ?_
  intro a b ha hb hrank hat
  have hra : layoutRank people a = MAX_SAFE_INTEGER := layoutRank_teamless hat
  have hrb : layoutRank people b = MAX_SAFE_INTEGER := by
    have := layoutRank_le_MAX people b
    omega
  by_contra hbt
  exact layoutRank_teamed_ne_MAX (mem_rankSorted_grouped hb)
    (hne b (mem_rankSorted hb)) hbt hrb

theorem layout_teamless_last {people : List Person}
    (hne : ∀ p ∈ people, p.tid ≠ some "") :
    TeamlessLast (calculateDeskLayout people) := by
  have h2 : List.Pairwise
      (fun p q => p.tid = none → q.tid = none) (rankSorted people) :=
    (rankSorted_teamless_last hne).imp
      (fun h ht => Person.tid_none_iff.mpr (h (Person.tid_none_iff.mp ht)))
  have h1 := @pairwise_tid_transport
    (fun a b => a = none → b = none) _ _
    (calculateDeskLayout_tids hne) h2
  exact h1.imp
    (fun h ht => Person.tid_none_iff.mp (h (Person.tid_none_iff.mpr ht)))

theorem layout_teamContiguous {people : List Person}
    (hne : ∀ p ∈ people, p.tid ≠ some "") :
    TeamContiguous (calculateDeskLayout people) :=
  teamContiguous_of_tids_eq (calculateDeskLayout_tids hne)
    (rankSorted_teamContiguous hne)

/-! ## The classifier output: category order and run count -/

theorem categoryCmp_skew (a b : TeamSummary) : categoryCmp b a = -categoryCmp a b := by
  unfold categoryCmp
  ring

theorem sortTeamsByCategory_pairwise (people : List Person) :
    List.Pairwise (fun a b => a.category.toNat ≤ b.category.toNat)
      (sortTeamsByCategory people) := by
  have h := @jsSort_pairwise TeamSummary categoryCmp (rawSummaries people)
    categoryCmp_skew
    (by
      intro a b c _ _ _ h1 h2
      unfold categoryCmp at h1 h2 ⊢
      omega)
  refine h.imp ?_
  intro a b hab
  unfold categoryCmp at hab
  omega

theorem sortTeamsByCategory_perm (people : List Person) :
    (sortTeamsByCategory people).Perm (rawSummaries people) :=
  jsSort_perm categoryCmp (rawSummaries people)

theorem clsStep_acc_length {st : ClsState} {q p : Person}
    (hq : st.currTeam.teamId = q.tid) :
    (clsStep st p).acc.length = st.acc.length +
      (if q.tid ≠ none ∧ q.tid ≠ some "" ∧ q.tid ≠ p.tid then 1 else 0) := by
  unfold clsStep clsBump
  show (clsClose (clsReset st p) p).acc.length = _
  unfold clsReset clsClose
  by_cases hrf : st.currTeam.teamId = none ∨ st.currTeam.teamId = some ""
  · rw [if_pos hrf]
    have hind : (if q.tid ≠ none ∧ q.tid ≠ some "" ∧ q.tid ≠ p.tid
        then 1 else 0) = 0 := by
      rcases hrf with hrf | hrf <;>
        rw [hq] at hrf <;>
        simp [hrf]
    rw [hind]
    rw [if_neg (by simp)]
    simp
  · rw [if_neg hrf]
    rw [hq] at hrf
    push_neg at hrf
    by_cases hqp : q.tid = p.tid
    · rw [if_neg (by rw [hq]; simpa using hqp)]
      simp [hrf.1, hrf.2, hqp]
    · rw [if_pos (by rw [hq]; simpa using hqp)]
      simp [hrf.1, hrf.2, hqp]

theorem foldl_clsStep_acc_length :
    ∀ (r : List Person) (st : ClsState) (q : Person),
      st.currTeam.teamId = q.tid →
      (r.foldl clsStep st).acc.length
        = st.acc.length + truthyBoundaries (q :: r) := by
  intro r
  induction r with
  | nil =>
    intro st q _
    rw [show truthyBoundaries [q] = 0 from rfl]
    simp
  | cons p ps ih =>
    intro st q hq
    rw [List.foldl_cons]
    rw [ih (clsStep st p) p (clsStep_currTeam st p)]
    rw [clsStep_acc_length hq]
    show st.acc.length +
        (if q.tid ≠ none ∧ q.tid ≠ some "" ∧ q.tid ≠ p.tid then 1 else 0)
        + truthyBoundaries (p :: ps) = _
    rw [show truthyBoundaries (q :: p :: ps)
      = (if q.tid ≠ none ∧ q.tid ≠ some "" ∧ q.tid ≠ p.tid then 1 else 0)
        + truthyBoundaries (p :: ps) from rfl]
    omega

theorem rawSummaries_length (people : List Person) :
    (rawSummaries people).length = truthyBoundaries people + 1 := by
  cases people with
  | nil =>
    rw [show truthyBoundaries [] = 0 from rfl]
    rfl
  | cons h t =>
    unfold rawSummaries
    rw [List.foldl_cons]
    have hfirst : (clsStep clsInit h).acc = [] := by
      unfold clsStep clsBump clsClose clsReset clsInit
      simp
    have hlen := foldl_clsStep_acc_length t (clsStep clsInit h) h
      (clsStep_currTeam clsInit h)
    rw [List.length_append, hlen, hfirst]
    simp [truthyBoundaries]

theorem sortTeamsByCategory_length (people : List Person) :
    (sortTeamsByCategory people).length = truthyBoundaries people + 1 := by
  rw [(sortTeamsByCategory_perm people).length_eq, rawSummaries_length]

/-! ## The interleave transform: structure and maximum run length -/

theorem findSplitPoint_go_bounds {h : Person} :
    ∀ {t : List Person} {i sp : Nat},
      findSplitPoint.go h i t = some sp → i ≤ sp ∧ sp < i + t.length := by
  intro t
  induction t with
  | nil =>
    intro i sp hsp
    exact Option.noConfusion hsp
  | cons p ps ih =>
    intro i sp hsp
    unfold findSplitPoint.go at hsp
    by_cases hd : p.dogStatus ≠ h.dogStatus
    · rw [if_pos hd] at hsp
      have : i = sp := Option.some.inj hsp
      subst this
      simp
    · rw [if_neg hd] at hsp
      have := ih hsp
      constructor
      · omega
      · simp only [List.length_cons]
        omega

theorem findSplitPoint_bounds {s : List Person} {sp : Nat}
    (hsp : findSplitPoint s = some sp) : 1 ≤ sp ∧ sp < s.length := by
  cases s with
  | nil => exact Option.noConfusion hsp
  | cons h t =>
    have := findSplitPoint_go_bounds (h := h) (t := t) hsp
    simp only [List.length_cons]
    omega

theorem insertPeopleWithDogLogic_eq {s : List Person} {sp : Nat}
    (hlen : 3 < s.length) (hsp : findSplitPoint s = some sp) :
    insertPeopleWithDogLogic s = alternate (s.take sp) (s.drop sp) := by
  unfold insertPeopleWithDogLogic
  rw [if_neg (by omega), hsp]

theorem alternate_map_snd {α : Type} :
    ∀ (A B : List α),
      (alternate (A.map (fun x => (x, true))) (B.map (fun x => (x, false)))).map
          Prod.snd
        = interleaveLabels A.length B.length := by
  intro A
  induction A with
  | nil =>
    intro B
    simp only [List.map_nil, alternate, List.map_map, List.length_nil]
    rw [show interleaveLabels 0 B.length = List.replicate B.length false
      from rfl]
    exact List.map_const' B false
  | cons x xs ih =>
    intro B
    cases B with
    | nil =>
      simp only [List.map_cons, List.map_nil, alternate, List.map_map,
        List.length_cons, List.length_nil]
      rw [show interleaveLabels (xs.length + 1) 0
        = List.replicate (xs.length + 1) true from rfl]
      rw [List.replicate_succ]
      exact congrArg (List.cons true) (List.map_const' xs true)
    | cons y ys =>
      simp only [List.map_cons, alternate, List.length_cons]
      rw [show interleaveLabels (xs.length + 1) (ys.length + 1)
        = true :: false :: interleaveLabels xs.length ys.length from rfl]
      rw [← ih ys]

theorem alternate_map_fst {α : Type} :
    ∀ (A B : List α),
      (alternate (A.map (fun x => (x, true))) (B.map (fun x => (x, false)))).map
          Prod.fst
        = alternate A B := by
  intro A
  induction A with
  | nil =>
    intro B
    simp only [List.map_nil, alternate, List.map_map]
    exact List.map_id' B
  | cons x xs ih =>
    intro B
    cases B with
    | nil =>
      simp only [List.map_cons, List.map_nil, alternate, List.map_map]
      exact congrArg (List.cons x) (List.map_id' xs)
    | cons y ys =>
      simp only [List.map_cons, alternate]
      rw [← ih ys]

theorem runsGo_replicate (c : Bool) :
    ∀ (m n : Nat), runsGo c n (List.replicate m c) = [n + m] := by
  intro m
  induction m with
  | zero =>
    intro n
    simp [runsGo]
  | succ k ih =>
    intro n
    rw [List.replicate_succ]
    unfold runsGo
    rw [if_pos rfl, ih (n + 1)]
    congr 1
    omega

theorem runs_interleave : ∀ (a b : Nat), 1 ≤ a → 1 ≤ b →
    runs (interleaveLabels a b)
      = if a = b then List.replicate (2 * a) 1
        else if a < b then List.replicate (2 * a - 1) 1 ++ [b - a + 1]
        else List.replicate (2 * b) 1 ++ [a - b] := by
  intro a
  induction a with
  | zero =>
    intro b h1 _
    exact absurd h1 (by omega)
  | succ a' ih =>
    intro b h1 hb
    obtain ⟨b', rfl⟩ : ∃ x, b = x + 1 := ⟨b - 1, by omega⟩
    by_cases ha0 : a' = 0
    · subst ha0
      by_cases hb0 : b' = 0
      · subst hb0
        decide
      · have hil : interleaveLabels 1 (b' + 1)
            = true :: false :: List.replicate b' false := rfl
        rw [hil]
        rw [show runs (true :: false :: List.replicate b' false)
          = runsGo true 1 (false :: List.replicate b' false) from rfl]
        unfold runsGo
        rw [if_neg (by simp)]
        rw [runsGo_replicate false b' 1]
        rw [if_neg (by omega), if_pos (by omega)]
        have e1 : 2 * 1 - 1 = 1 := by omega
        have e2 : (b' + 1) - 1 + 1 = 1 + b' := by omega
        rw [e1, e2]
        rfl
    · obtain ⟨a'', rfl⟩ : ∃ x, a' = x + 1 := ⟨a' - 1, by omega⟩
      by_cases hb0 : b' = 0
      · subst hb0
        have hil : interleaveLabels (a'' + 1 + 1) 1
            = true :: false :: List.replicate (a'' + 1) true := rfl
        rw [hil]
        rw [show runs (true :: false :: List.replicate (a'' + 1) true)
          = runsGo true 1 (false :: List.replicate (a'' + 1) true) from rfl]
        unfold runsGo
        rw [if_neg (by simp)]
        rw [List.replicate_succ]
        unfold runsGo
        rw [if_neg (by simp)]
        rw [runsGo_replicate true a'' 1]
        rw [if_neg (by omega), if_neg (by omega)]
        have e1 : 2 * 1 = 2 := by omega
        have e2 : a'' + 1 + 1 - 1 = 1 + a'' := by omega
        rw [e1, e2]
        rfl
      · obtain ⟨b'', rfl⟩ : ∃ x, b' = x + 1 := ⟨b' - 1, by omega⟩
        have hrec : runs (interleaveLabels (a'' + 1 + 1) (b'' + 1 + 1))
            = 1 :: 1 :: runs (interleaveLabels (a'' + 1) (b'' + 1)) := by
          rw [show interleaveLabels (a'' + 1 + 1) (b'' + 1 + 1)
              = true :: false :: interleaveLabels (a'' + 1) (b'' + 1)
            from rfl]
          rw [show interleaveLabels (a'' + 1) (b'' + 1)
              = true :: false :: interleaveLabels a'' b'' from rfl]
          simp [runs, runsGo]
        rw [hrec, ih (b'' + 1) (by omega) (by omega)]
        by_cases heq : a'' + 1 = b'' + 1
        · rw [if_pos heq, if_pos (by omega)]
          rw [show 2 * (a'' + 1 + 1) = 2 * (a'' + 1) + 1 + 1 by ring]
          rw [List.replicate_succ, List.replicate_succ]
        · by_cases hlt : a'' + 1 < b'' + 1
          · rw [if_neg heq, if_pos hlt, if_neg (by omega), if_pos (by omega)]
            have e1 : 2 * (a'' + 1 + 1) - 1 = (2 * (a'' + 1) - 1) + 1 + 1 := by
              omega
            have e2 : (b'' + 1 + 1) - (a'' + 1 + 1) + 1
                = (b'' + 1) - (a'' + 1) + 1 := by omega
            rw [e1, e2, List.replicate_succ, List.replicate_succ]
            rfl
          · rw [if_neg heq, if_neg hlt, if_neg (by omega), if_neg (by omega)]
            have e1 : 2 * (b'' + 1 + 1) = 2 * (b'' + 1) + 1 + 1 := by omega
            have e2 : (a'' + 1 + 1) - (b'' + 1 + 1)
                = (a'' + 1) - (b'' + 1) := by omega
            rw [e1, e2, List.replicate_succ, List.replicate_succ]
            rfl

theorem foldr_max_replicate_one :
    ∀ (n m : Nat), (List.replicate n 1).foldr max m
      = if n = 0 then m else max 1 m := by
  intro n
  induction n with
  | zero =>
    intro m
    simp
  | succ k ih =>
    intro m
    rw [List.replicate_succ, List.foldr_cons, ih m]
    by_cases hk : k = 0
    · simp [hk]
    · rw [if_neg hk, if_neg (by omega)]
      rw [← max_assoc, max_self]

theorem maxRun_interleave (a b : Nat) (ha : 1 ≤ a) (hb : 1 ≤ b) :
    maxRun (interleaveLabels a b)
      = if a = b then 1 else if a < b then b - a + 1 else a - b := by
  unfold maxRun
  rw [runs_interleave a b ha hb]
  by_cases heq : a = b
  · rw [if_pos heq, if_pos heq]
    rw [foldr_max_replicate_one]
    rw [if_neg (by omega)]
    simp
  · by_cases hlt : a < b
    · rw [if_neg heq, if_pos hlt, if_neg heq, if_pos hlt]
      rw [List.foldr_append]
      rw [show List.foldr max 0 [b - a + 1] = b - a + 1 by simp]
      rw [foldr_max_replicate_one]
      rw [if_neg (by omega)]
      rw [Nat.max_eq_right (by omega)]
    · rw [if_neg heq, if_neg hlt, if_neg heq, if_neg hlt]
      rw [List.foldr_append]
      rw [show List.foldr max 0 [a - b] = a - b by simp]
      rw [foldr_max_replicate_one]
      rw [if_neg (by omega)]
      rw [Nat.max_eq_right (by omega)]

/-! ## Claim theorems -/

/-- Claim C1: for every input, the output of `calculateDeskLayout` is a
permutation of the input (so the multiset of `Person` values and the
multiset of person ids are both preserved — nothing is added, lost or
duplicated, and an empty input yields an empty output). -/
theorem calculateDeskLayout_permutation (people : List Person) :
    (calculateDeskLayout people).Perm people
      ∧ ((calculateDeskLayout people).map Person.id).Perm
          (people.map Person.id) := by
  have hperm : (calculateDeskLayout people).Perm people :=
    (interleavePass_perm (rankSorted people)).trans
      ((jsSort_perm _ (groupedPeople people)).trans
        (jsSort_perm sortByTeamAndDogStatus people))
  exact ⟨hperm, hperm.map Person.id⟩

/-- Claim C2 (counterexample): with the empty-string team id, team `""` is
split by a teamless person in the output, so team contiguity fails as
universally stated. -/
theorem teamContiguity_counterexample :
    ¬ TeamContiguous (calculateDeskLayout exEmptyTeamId)
      ∧ (calculateDeskLayout exEmptyTeamId).map Person.id
          = ["p4", "p1", "p2", "p3"]
      ∧ (calculateDeskLayout exEmptyTeamId).map Person.tid
          = [some "Z", some "", none, some ""] := by
  refine ⟨?_, ?_, ?_⟩ <;> decide

/-- Claim C2 (amended): for every input in which no team id is the empty
string, all people sharing a team id occupy one contiguous block of the
output — no person of a different team and no teamless person sits between
two members of the same team. -/
theorem calculateDeskLayout_teamContiguous (people : List Person)
    (hne : ∀ p ∈ people, p.tid ≠ some "") :
    TeamContiguous (calculateDeskLayout people) :=
  layout_teamContiguous hne

/-- Witness for the amended claim C2 at the documented example input. -/
theorem calculateDeskLayout_teamContiguous_witness :
    (∀ p ∈ exDocumented, p.tid ≠ some "")
      ∧ TeamContiguous (calculateDeskLayout exDocumented) :=
  ⟨by decide, calculateDeskLayout_teamContiguous exDocumented (by decide)⟩

/-- Claim C3 (counterexample): with one teamless person and one all-Have
team (classified DogLovers), the output places the DogLovers block before
the teamless person, so the claimed order "teamless before DogLovers"
fails. -/
theorem categoryOrdering_counterexample :
    ¬ ClaimedCategoryOrdering exTeamlessLovers
      ∧ (calculateDeskLayout exTeamlessLovers).map Person.id = ["a1", "t1"]
      ∧ sortTeamsByCategory (groupedPeople exTeamlessLovers)
          = [{ teamId := some "A", category := TeamCategory.DOG_LOVERS }] := by
  refine ⟨?_, ?_, ?_⟩ <;> decide

/-- Claim C3 (amended): for every input in which no team id is the empty
string, the output is ordered by the rank the re-sort derives from the
classifier: DogHaters blocks (rank 0) precede Mixed blocks (rank 1)
precede DogLovers blocks (rank 3), and the teamless people (rank
`MAX_SAFE_INTEGER`) come last — after DogLovers, not before. -/
theorem calculateDeskLayout_categoryOrdered (people : List Person)
    (hne : ∀ p ∈ people, p.tid ≠ some "") :
    List.Pairwise
      (fun p q => layoutRank people p ≤ layoutRank people q)
      (calculateDeskLayout people) :=
  layout_rank_pairwise hne

/-- Witness for the amended claim C3 at a concrete input containing a
teamless person and a DogLovers team. -/
theorem calculateDeskLayout_categoryOrdered_witness :
    (∀ p ∈ exTeamlessLovers, p.tid ≠ some "")
      ∧ List.Pairwise
          (fun p q =>
            layoutRank exTeamlessLovers p ≤ layoutRank exTeamlessLovers q)
          (calculateDeskLayout exTeamlessLovers) :=
  ⟨by decide, calculateDeskLayout_categoryOrdered exTeamlessLovers (by decide)⟩

/-- Claim C4 (counterexample): the lookup-miss mechanism is real, but its
stated consequence "every teamless person is after every teamed person"
fails when a team id is the empty string: team `""` can also miss the map
and then tie with — and sort after — teamless people. -/
theorem teamlessLast_counterexample :
    (∃ p ∈ exEmptyTeamId, p.team = none)
      ∧ ¬ TeamlessLast (calculateDeskLayout exEmptyTeamId)
      ∧ (calculateDeskLayout exEmptyTeamId).map Person.tid
          = [some "Z", some "", none, some ""] := by
  refine ⟨?_, ?_, ?_⟩ <;> decide

/-- Claim C4 (amended): the rank lookup of every teamless person misses
(the classifier stores the teamless run, if at all, under the `null` key
while the re-sort looks up `undefined`) and falls back to
`Number.MAX_SAFE_INTEGER`; consequently, for every input in which no team
id is the empty string, every teamless person appears after every teamed
person in the output, regardless of the category computed for the
teamless run. -/
theorem calculateDeskLayout_teamlessLast (people : List Person)
    (hne : ∀ p ∈ people, p.tid ≠ some "") :
    (∀ p : Person, p.team = none →
        layoutRank people p = MAX_SAFE_INTEGER)
      ∧ TeamlessLast (calculateDeskLayout people) :=
  ⟨fun _ hp => layoutRank_teamless hp, layout_teamless_last hne⟩

/-- Witness for the amended claim C4 at a concrete input containing a
teamless person. -/
theorem calculateDeskLayout_teamlessLast_witness :
    ((∀ p ∈ exTeamlessLovers, p.tid ≠ some "")
        ∧ (∃ p ∈ exTeamlessLovers, p.team = none))
      ∧ ((∀ p : Person, p.team = none →
            layoutRank exTeamlessLovers p = MAX_SAFE_INTEGER)
          ∧ TeamlessLast (calculateDeskLayout exTeamlessLovers)) :=
  ⟨⟨by decide, by decide⟩,
    calculateDeskLayout_teamlessLast exTeamlessLovers (by decide)⟩

/-- Claim C5 (counterexample): on a grouped input whose first run is
classified DogLovers and second DogHaters, the summaries come back in
category order `[B, A]`, not in run order `[A, B]`. -/
theorem summaryOrder_counterexample :
    rawSummaries exRunOrder
        = [ { teamId := some "A", category := TeamCategory.DOG_LOVERS }
          , { teamId := some "B", category := TeamCategory.DOG_HATERS } ]
      ∧ sortTeamsByCategory exRunOrder
          = [ { teamId := some "B", category := TeamCategory.DOG_HATERS }
            , { teamId := some "A", category := TeamCategory.DOG_LOVERS } ]
      ∧ sortTeamsByCategory exRunOrder ≠ rawSummaries exRunOrder := by
  refine ⟨?_, ?_, ?_⟩ <;> decide

/-- Claim C5 (amended): `sortTeamsByCategory` returns the summaries the
scan accumulates — one per closed run, where a change of team id closes
the current run only when the id being left is truthy (non-null and
non-empty; a teamless or empty-id run is silently merged into the
following run), plus one final summary for the pending run, for a total of
`truthyBoundaries people + 1` — and returns them sorted by category
ordinal, not in the order the runs occur. -/
theorem sortTeamsByCategory_spec (people : List Person) :
    (sortTeamsByCategory people).Perm (rawSummaries people)
      ∧ List.Pairwise
          (fun a b => a.category.toNat ≤ b.category.toNat)
          (sortTeamsByCategory people)
      ∧ (sortTeamsByCategory people).length = truthyBoundaries people + 1 :=
  ⟨sortTeamsByCategory_perm people, sortTeamsByCategory_pairwise people,
    sortTeamsByCategory_length people⟩

/-- Claim C6: `categoriseTeam` is DogLovers when `AVOID = 0`, otherwise
DogHaters when `HAVE = 0`, otherwise Mixed; the `NO_TEAM` fallback is
unreachable. -/
theorem categoriseTeam_spec (c : Counts) :
    categoriseTeam c
        = (if c.AVOID = 0 then TeamCategory.DOG_LOVERS
           else if c.HAVE = 0 then TeamCategory.DOG_HATERS
           else TeamCategory.MIXED)
      ∧ categoriseTeam c ≠ TeamCategory.NO_TEAM := by
  have heq : categoriseTeam c
      = (if c.AVOID = 0 then TeamCategory.DOG_LOVERS
         else if c.HAVE = 0 then TeamCategory.DOG_HATERS
         else TeamCategory.MIXED) := by
    unfold categoriseTeam
    by_cases h1 : c.AVOID = 0
    · rw [if_pos h1, if_pos h1]
    · rw [if_neg h1, if_neg h1]
      by_cases h2 : c.HAVE = 0
      · rw [if_pos h2, if_pos h2]
      · rw [if_neg h2, if_neg h2, if_pos (by omega)]
  refine ⟨heq, ?_⟩
  rw [heq]
  by_cases h1 : c.AVOID = 0
  · rw [if_pos h1]
    decide
  · rw [if_neg h1]
    by_cases h2 : c.HAVE = 0
    · rw [if_pos h2]
      decide
    · rw [if_neg h2]
      decide

/-- Claim C7 (counterexample): on the length-4 slice `[L, L, H, H]` the
split is even (`a = b = 2`); the result alternates perfectly, whose
longest same-subgroup run is 1, but the claim's formula `|a - b|` gives
0. -/
theorem interleaveFairness_counterexample :
    (insertPeopleWithDogLogic exEvenSlice).map Person.id
        = ["q1", "q3", "q2", "q4"]
      ∧ findSplitPoint exEvenSlice = some 2
      ∧ (exEvenSlice.take 2).length = 2
      ∧ (exEvenSlice.drop 2).length = 2
      ∧ maxRun (interleaveLabels 2 2) = 1
      ∧ maxRun (interleaveLabels 2 2) ≠ max (2 - 2) (2 - 2) := by
  refine ⟨?_, ?_, ?_, ?_, ?_, ?_⟩ <;> decide

/-- Claim C7 (amended): for every slice of length `> 3` with a split point,
the transform alternates groupA and groupB until the smaller is exhausted
and then appends the larger group's tail in order (this is exactly
`alternate`, whose provenance labels are `interleaveLabels a b`); the
maximum number of consecutive same-subgroup elements is `1` when `a = b`,
`b - a + 1` when `a < b`, and `a - b` when `a > b` — not `|a - b|`. -/
theorem insertPeopleWithDogLogic_spec (s : List Person) (sp : Nat)
    (hlen : 3 < s.length) (hsp : findSplitPoint s = some sp) :
    insertPeopleWithDogLogic s = alternate (s.take sp) (s.drop sp)
      ∧ (alternate ((s.take sp).map (fun x => (x, true)))
            ((s.drop sp).map (fun x => (x, false)))).map Prod.fst
          = alternate (s.take sp) (s.drop sp)
      ∧ (alternate ((s.take sp).map (fun x => (x, true)))
            ((s.drop sp).map (fun x => (x, false)))).map Prod.snd
          = interleaveLabels (s.take sp).length (s.drop sp).length
      ∧ maxRun (interleaveLabels (s.take sp).length (s.drop sp).length)
          = (if (s.take sp).length = (s.drop sp).length then 1
             else if (s.take sp).length < (s.drop sp).length
             then (s.drop sp).length - (s.take sp).length + 1
             else (s.take sp).length - (s.drop sp).length) := by
  have hb := findSplitPoint_bounds hsp
  have ha1 : 1 ≤ (s.take sp).length := by
    rw [List.length_take]
    omega
  have hb1 : 1 ≤ (s.drop sp).length := by
    rw [List.length_drop]
    omega
  exact ⟨insertPeopleWithDogLogic_eq hlen hsp,
    alternate_map_fst (s.take sp) (s.drop sp),
    alternate_map_snd (s.take sp) (s.drop sp),
    maxRun_interleave _ _ ha1 hb1⟩

/-- Witness for the amended claim C7 at a length-5 slice splitting 2/3. -/
theorem insertPeopleWithDogLogic_spec_witness :
    (3 < exOddSlice.length ∧ findSplitPoint exOddSlice = some 2)
      ∧ (insertPeopleWithDogLogic exOddSlice
            = alternate (exOddSlice.take 2) (exOddSlice.drop 2)
          ∧ (alternate ((exOddSlice.take 2).map (fun x => (x, true)))
                ((exOddSlice.drop 2).map (fun x => (x, false)))).map Prod.fst
              = alternate (exOddSlice.take 2) (exOddSlice.drop 2)
          ∧ (alternate ((exOddSlice.take 2).map (fun x => (x, true)))
                ((exOddSlice.drop 2).map (fun x => (x, false)))).map Prod.snd
              = interleaveLabels (exOddSlice.take 2).length
                  (exOddSlice.drop 2).length
          ∧ maxRun (interleaveLabels (exOddSlice.take 2).length
                (exOddSlice.drop 2).length)
              = (if (exOddSlice.take 2).length = (exOddSlice.drop 2).length
                 then 1
                 else if (exOddSlice.take 2).length
                     < (exOddSlice.drop 2).length
                 then (exOddSlice.drop 2).length
                     - (exOddSlice.take 2).length + 1
                 else (exOddSlice.take 2).length
                     - (exOddSlice.drop 2).length)) :=
  ⟨⟨by decide, by decide⟩,
    insertPeopleWithDogLogic_spec exOddSlice 2 (by decide) (by decide)⟩

/-- Claim C8: on valid bounds `0 ≤ start ≤ end < length`,
`reorderSubArray` returns the untouched prefix, the transform applied to
exactly the slice `[start, end]`, and the untouched suffix. -/
theorem reorderSubArray_spec {α : Type} (l : List α) (start endIdx : Int)
    (f : List α → List α)
    (h0 : 0 ≤ start) (h1 : start ≤ endIdx) (h2 : endIdx < (l.length : Int)) :
    reorderSubArray l start endIdx f
        = l.take start.toNat
          ++ f ((l.take (endIdx.toNat + 1)).drop start.toNat)
          ++ l.drop (endIdx.toNat + 1)
      ∧ (reorderSubArray l start endIdx f).take start.toNat
          = l.take start.toNat
      ∧ (reorderSubArray l start endIdx f).drop
            (start.toNat
              + (f ((l.take (endIdx.toNat + 1)).drop start.toNat)).length)
          = l.drop (endIdx.toNat + 1) := by
  have hval := reorderSubArray_valid l start endIdx f h0 h1 h2
  have hlt : start.toNat ≤ l.length := by omega
  have htl : (l.take start.toNat).length = start.toNat := by
    rw [List.length_take]
    omega
  refine ⟨hval, ?_, ?_⟩
  · rw [hval, List.append_assoc]
    exact List.take_left' htl
  · rw [hval]
    refine List.drop_left' ?_
    rw [List.length_append, htl]

/-- Witness for claim C8 at a concrete array, bounds and transform. -/
theorem reorderSubArray_spec_witness :
    ((0 : Int) ≤ 1 ∧ (1 : Int) ≤ 2
        ∧ (2 : Int) < (([10, 20, 30, 40] : List Nat).length : Int))
      ∧ (reorderSubArray ([10, 20, 30, 40] : List Nat) 1 2 List.reverse
            = [10, 20, 30, 40].take 1
              ++ List.reverse (([10, 20, 30, 40].take 3).drop 1)
              ++ [10, 20, 30, 40].drop 3
          ∧ (reorderSubArray ([10, 20, 30, 40] : List Nat) 1 2
                List.reverse).take 1
              = [10, 20, 30, 40].take 1
          ∧ (reorderSubArray ([10, 20, 30, 40] : List Nat) 1 2
                List.reverse).drop
                (1 + (List.reverse (([10, 20, 30, 40].take 3).drop 1)).length)
              = [10, 20, 30, 40].drop 3) :=
  ⟨⟨by decide, by decide, by decide⟩,
    reorderSubArray_spec [10, 20, 30, 40] 1 2 List.reverse
      (by decide) (by decide) (by decide)⟩

/-- Claim C9: on invalid bounds (`start < 0`, or `end ≥ length`, or
`start > end`) `reorderSubArray` applies no transformation and returns the
original array unchanged (the warning is a console effect only; being a
total function, it never throws). -/
theorem reorderSubArray_invalid_spec {α : Type} (l : List α)
    (start endIdx : Int) (f : List α → List α)
    (h : start < 0 ∨ (l.length : Int) ≤ endIdx ∨ start > endIdx) :
    reorderSubArray l start endIdx f = l :=
  reorderSubArray_invalid l start endIdx f h

/-- Witness for claim C9 at an inverted index pair. -/
theorem reorderSubArray_invalid_spec_witness :
    ((2 : Int) < 0 ∨ (([1, 2, 3] : List Nat).length : Int) ≤ 1
        ∨ (2 : Int) > 1)
      ∧ reorderSubArray ([1, 2, 3] : List Nat) 2 1 List.reverse = [1, 2, 3] :=
  ⟨by decide,
    reorderSubArray_invalid_spec [1, 2, 3] 2 1 List.reverse (by decide)⟩

/-- Claim C10: every `reorderSubArray` call the interleaving pass of
`calculateDeskLayout` makes (the mid-scan flushes and the terminal flush)
has `0 ≤ start ≤ end < length` for the array passed, so the invalid-bounds
fallback branch is unreachable from `calculateDeskLayout`. -/
theorem deskLayoutCalls_valid (people : List Person) (c : CallRec)
    (hc : c ∈ deskLayoutCalls people) :
    CallOK c
      ∧ ¬ (c.start < 0 ∨ (c.len : Int) ≤ c.stop ∨ c.start > c.stop) := by
  have hok : CallOK c := runScan_calls_ok (rankSorted people) c hc
  refine ⟨hok, ?_⟩
  rcases hok with ⟨hs, hse, hel⟩
  push_neg
  exact ⟨by omega, by omega, by omega⟩

/-- Witness for claim C10 at the documented example, whose pass makes one
call. -/
theorem deskLayoutCalls_valid_witness :
    deskLayoutCalls exDocumented = [{ start := 1, stop := 4, len := 5 }]
      ∧ (CallOK { start := 1, stop := 4, len := 5 }
          ∧ ¬ ((1 : Int) < 0 ∨ ((5 : Nat) : Int) ≤ 4 ∨ (1 : Int) > 4)) :=
  ⟨by decide,
    deskLayoutCalls_valid exDocumented ⟨1, 4, 5⟩ (by decide)⟩
